import Mathlib

/-!
# Verification of the novel-set-neat NEAT core against its specification

Shallow embedding of the Rust sources (`src/individual/genome.rs`,
`src/individual/mod.rs`, `src/individual/scores.rs`, `src/population.rs`) in
Lean 4.  Rust `f64` values are modelled as `ℚ` (exact real-valued semantics of
the arithmetic the code performs); machine integers (`usize`, `u64` ids) are
modelled as `Nat`.

The generic gene container (`Genes`), the id generator and the behaviour
module are declared in files that are not part of the sources at hand
(`src/genes/mod.rs`, `src/individual/behavior.rs`); where their behaviour is
needed it is modelled from the specification, and every such definition is
marked `Modelled from the spec:` in its doc string.

The `Genes` container is an ordered set keyed by structural identity (node
id, or connection endpoint pair).  It is modelled as a `List` whose order
stands for the set's iteration order; insertion is modelled as an
identity-checked append (the properties proved below never depend on where
in the iteration order an inserted gene lands).  All sources of randomness
(random offsets, random picks, random weights, gamble outcomes) are passed
as explicit parameters, so each Rust method becomes a pure function of the
genome and of the random choices.
-/

/-- Activation functions of nodes (`Activation` enum; the variants are listed
in `src/parameters.rs`). Only identity and distinctness of the tags matter
for the claims below. -/
inductive Activation where
  | Linear | Sigmoid | Tanh | Gaussian | Step | Sine | Cosine | Inverse | Absolute | Relu
  deriving DecidableEq, Repr

/-- A node gene: `Node(Id, Activation)`. -/
structure Node where
  id : Nat
  activation : Activation
  deriving DecidableEq, Repr

/-- A connection gene: `Connection(input Id, Weight, output Id)`.  Structural
identity for set membership is the `(input, output)` pair; the weight is
mutable payload. -/
structure Connection where
  input : Nat
  weight : ℚ
  output : Nat
  deriving DecidableEq, Repr

/-- The genome: typed gene sets for input/hidden/output nodes and
feed-forward/recurrent connections (`Genome` in `src/individual/genome.rs`). -/
structure Genome where
  inputs : List Node
  hidden : List Node
  outputs : List Node
  feed_forward : List Connection
  recurrent : List Connection
  deriving DecidableEq, Repr

/-- The ids of a list of node genes. -/
def nodeIds (l : List Node) : List Nat := l.map Node.id

/-- Identity-only membership test for connections: does the set contain a
connection with this `(input, output)` pair (ignoring the weight)?
Modelled from the spec: `Genes::contains` is an identity-only membership
test, ignoring payload. -/
def containsPair (l : List Connection) (i o : Nat) : Bool :=
  l.any (fun c => c.input == i && c.output == o)

/-- Modelled from the spec: `Genes::insert` fails (no-op, returns false) if a
gene with the same identity already exists, otherwise adds the gene.  The
callers below `assert!` success, which is modelled by returning `none` in
the duplicate case. -/
def insertConnChecked (l : List Connection) (c : Connection) : Option (List Connection) :=
  if containsPair l c.input c.output then none else some (l ++ [c])

/-- Modelled from the spec: `Genes::replace` is an upsert by identity,
overwriting the payload (weight) of the gene with the same identity. -/
def replaceConn (l : List Connection) (c : Connection) : List Connection :=
  l.map (fun d => if d.input == c.input && d.output == c.output then c else d)

/-- `Genome::len`: total number of genes (feed-forward plus recurrent
connections), `src/individual/genome.rs`. -/
def Genome.len (g : Genome) : Nat := g.feed_forward.length + g.recurrent.length

/-! ## Score pipeline (`src/individual/scores.rs`) -/

/-- One fitness or novelty score record: the three stages raw → shifted →
normalized (`FitnessScore` / `NoveltyScore`; the two Rust types carry the
same data and the same algorithm). -/
structure ScoreTriple where
  raw : ℚ
  shifted : ℚ
  normalized : ℚ
  deriving DecidableEq, Repr

/-- `Raw::shift`: `Shifted(self.value() - baseline)`. -/
def shiftScore (raw baseline : ℚ) : ℚ := raw - baseline

/-- `Shifted::normalize`: `Normalized(self.value() / with.max(1.0))`. -/
def normalizeScore (shifted withv : ℚ) : ℚ := shifted / max withv 1

/-- `FitnessScore::new` / `NoveltyScore::new`: build the three-stage record
from a raw value, the baseline and the normalization divisor. -/
def ScoreTriple.new (raw baseline withv : ℚ) : ScoreTriple :=
  { raw := raw
    shifted := shiftScore raw baseline
    normalized := normalizeScore (shiftScore raw baseline) withv }

/-! ## Individual (`src/individual/mod.rs`) -/

/-- A behavior vector (`Behavior(Vec<f64>)`, declared in the absent
`src/individual/behavior.rs`; only the payload vector is needed here). -/
def Behavior := List ℚ
deriving instance DecidableEq for Behavior

/-- `Individual`: genome + age + optional behavior + optional fitness +
optional novelty. -/
structure Individual where
  genome : Genome
  age : Nat
  behavior : Option Behavior
  fitness : Option ScoreTriple
  novelty : Option ScoreTriple

/-- The normalized value of an optional score, `0.0` if absent
(`.map(|n| n.normalized.value()).unwrap_or(0.0)`). -/
def normalizedOrZero (s : Option ScoreTriple) : ℚ :=
  (s.map ScoreTriple.normalized).getD 0

/-- `Individual::score`: combination of normalized fitness and novelty,
translated verbatim from `src/individual/mod.rs`. -/
def Individual.score (ind : Individual) : ℚ :=
  let novelty := normalizedOrZero ind.novelty
  let fitness := normalizedOrZero ind.fitness
  if novelty = 0 ∧ fitness = 0 then 0
  else
    let p := if novelty < fitness then (novelty, fitness) else (fitness, novelty)
    let ratio := p.1 / p.2 / 2
    p.1 * ratio + p.2 * (1 - ratio)

/-- `f64::EPSILON` = 2⁻⁵², as an exact rational. -/
def f64Epsilon : ℚ := 1 / 2 ^ 52

/-- `Individual::is_fitter_than`: higher score, or equal score within
`f64::EPSILON` and strictly fewer total genes. -/
def Individual.isFitterThan (ind other : Individual) : Bool :=
  decide (other.score < ind.score) ||
    (decide (|ind.score - other.score| < f64Epsilon) &&
      decide (ind.genome.len < other.genome.len))

/-! ## Population fitness assignment (`Population::assign_fitness`) -/

/-- The running minimum taken by `assign_fitness` (a fold starting from
`f64::INFINITY`; on a nonempty list this is the least element). -/
def foldMin (x : ℚ) (xs : List ℚ) : ℚ := xs.foldl min x

/-- The running maximum taken by `assign_fitness` (a fold starting from
`f64::NEG_INFINITY`). -/
def foldMax (x : ℚ) (xs : List ℚ) : ℚ := xs.foldl max x

/-- `Population::assign_fitness`, restricted to the score computation: given
the raw fitness values extracted from the `Progress` slice, compute
`baseline` = raw minimum, `with` = maximum shifted value, and build one
`FitnessScore` per raw value.  (The same three-stage pipeline is applied to
novelty in `calculate_novelty`.) -/
def assignFitnessScores (raws : List ℚ) : List ScoreTriple :=
  match raws with
  | [] => []
  | x :: xs =>
    let baseline := foldMin x xs
    let rawMaximum := foldMax x xs
    let withv := shiftScore rawMaximum baseline
    (x :: xs).map (fun r => ScoreTriple.new r baseline withv)

/-! ## Genome operations (`src/individual/genome.rs`) -/

/-- `Genome::new`: fresh genome with `input` many input nodes and `output`
many output nodes, ids issued sequentially by the id generator (modelled as
consecutive naturals starting at `start`), inputs with the fixed `Linear`
activation, outputs with the configured output activation. -/
def newGenome (start nIn nOut : Nat) (outAct : Activation) : Genome :=
  { inputs := (List.range nIn).map (fun i => ⟨start + i, Activation.Linear⟩)
    hidden := []
    outputs := (List.range nOut).map (fun i => ⟨start + nIn + i, outAct⟩)
    feed_forward := []
    recurrent := [] }

/-- `Genome::init`: starting from a random rotation of the input set, take
the first `k` inputs (`k` = `ceil(rand * input_dimension)`, modelled as a
parameter) and insert, with `assert!`, a feed-forward connection from each
of them to every output.  The nested loops are modelled as one fold over the
`selected input × output` product list; each weight is a fresh random
`Weight::default()`, modelled by the function `w` of the endpoint ids. -/
def initGenome (g : Genome) (offset k : Nat) (w : Nat → Nat → ℚ) : Option Genome :=
  let chosen := (g.inputs.rotate offset).take k
  let pairs := chosen.flatMap (fun inp => g.outputs.map (fun out => (inp, out)))
  (pairs.foldlM
      (fun ff (p : Node × Node) => insertConnChecked ff ⟨p.1.id, w p.1.id p.2.id, p.2.id⟩)
      g.feed_forward).map
    (fun ff => { g with feed_forward := ff })

/-- One round of the frontier loop of `Genome::would_form_cycle`: the Rust
`while !possible_paths.is_empty()` loop, made total with a fuel parameter.
`some b` means the Rust loop finishes with result `b`; `none` means the fuel
ran out before the frontier emptied (which, as proved below, cannot happen
within `conns.length + 1` rounds on an acyclic connection set). -/
def wfcLoop (conns : List Connection) (startId : Nat) :
    Nat → List Connection → Option Bool
  | fuel, frontier =>
    if frontier.isEmpty then some false
    else
      match fuel with
      | 0 => none
      | fuel' + 1 =>
        if frontier.any (fun path => path.output == startId) then some true
        else
          wfcLoop conns startId fuel'
            (frontier.flatMap (fun path => conns.filter (fun c => c.input == path.output)))

/-- `Genome::would_form_cycle(start, end)`: forward traversal from `end`
along existing feed-forward connections, true iff `start` is hit.  The
initial frontier is every connection leaving `end`; the loop is run with
fuel `feed_forward.length + 1`, which suffices when the feed-forward set is
acyclic (the Rust loop has no fuel and relies on that precondition). -/
def wouldFormCycle (g : Genome) (startNode endNode : Node) : Bool :=
  (wfcLoop g.feed_forward startNode.id (g.feed_forward.length + 1)
      (g.feed_forward.filter (fun c => c.input == endNode.id))).getD false

/-- `Genome::are_connected`: identity-only containment in the recurrent or
feed-forward set, depending on `recurrent`. -/
def areConnected (g : Genome) (startNode endNode : Node) (recurrent : Bool) : Bool :=
  if recurrent then containsPair g.recurrent startNode.id endNode.id
  else containsPair g.feed_forward startNode.id endNode.id

/-- The candidate search of `Genome::add_connection`: visit every start node
(inputs ∪ hidden) once, beginning at a random rotation `offset`, and for
each take the first end node (hidden ∪ outputs) that is distinct from the
start, not already connected to it in the targeted set and, for the
feed-forward case, would not form a cycle. -/
def connectionCandidate (g : Genome) (isRecurrent : Bool) (offset : Nat) :
    Option (Node × Node) :=
  ((g.inputs ++ g.hidden).rotate offset).findSome? (fun s =>
    ((g.hidden ++ g.outputs).find? (fun e =>
        decide (e ≠ s) && !areConnected g s e isRecurrent &&
          (isRecurrent || !wouldFormCycle g s e))).map (fun e => (s, e)))

/-- `Genome::add_connection`: on the first acceptable pair, insert one new
connection (with a fresh random weight `w`) into the targeted set and return
`Ok(())`; otherwise return `Err("no connection possible")` leaving the
genome unchanged.  The `&mut self` method is modelled by returning the new
genome next to the `Result`. -/
def addConnection (g : Genome) (isRecurrent : Bool) (offset : Nat) (w : ℚ) :
    Genome × Except String Unit :=
  match connectionCandidate g isRecurrent offset with
  | some (s, e) =>
    (if isRecurrent then { g with recurrent := g.recurrent ++ [⟨s.id, w, e.id⟩] }
     else { g with feed_forward := g.feed_forward ++ [⟨s.id, w, e.id⟩] },
     Except.ok ())
  | none => (g, Except.error "no connection possible")

/-- `Genome::add_node`: pick the feed-forward connection at random index
`pick` (`none` models the panic of `.unwrap()` on an empty set), obtain a
new node id (modelled from the spec: the id generator's split cache yields
candidate ids and the code takes the first one not already used by a hidden
node of this genome, so reaching this point with `newId` used by a hidden
node is impossible and is modelled as `none`), insert the two bridging
connections and the new hidden node with `assert!`, then zero out the split
connection's weight via `replace`. -/
def addNode (g : Genome) (pick newId : Nat) (act : Activation) : Option Genome :=
  match g.feed_forward.get? pick with
  | none => none
  | some c =>
    if newId ∈ nodeIds g.hidden then none
    else
      (insertConnChecked g.feed_forward ⟨c.input, 1, newId⟩).bind (fun ff1 =>
        (insertConnChecked ff1 ⟨newId, c.weight, c.output⟩).map (fun ff2 =>
          { g with
            feed_forward := replaceConn ff2 { c with weight := 0 }
            hidden := g.hidden ++ [⟨newId, act⟩] }))

/-- `Genome::change_weights`: every feed-forward and recurrent connection
weight receives an additive perturbation (the randomized visiting order has
no effect on the resulting set, which is keyed by identity; the random
gaussian increments are modelled by the function `delta` of the endpoint
ids). -/
def changeWeights (g : Genome) (delta : Nat → Nat → ℚ) : Genome :=
  { g with
    feed_forward :=
      g.feed_forward.map (fun c => { c with weight := c.weight + delta c.input c.output })
    recurrent :=
      g.recurrent.map (fun c => { c with weight := c.weight + delta c.input c.output }) }

/-- Modelled from the spec: `Genes::replace` for node genes (upsert keyed by
the node id). -/
def replaceNode (l : List Node) (n : Node) : List Node :=
  l.map (fun d => if d.id == n.id then n else d)

/-- `Genome::alter_activation`: pick the hidden node at random index `pick`
(no-op when the hidden set is empty) and replace its activation by the
choice at index `actPick` among the configured candidates different from
its current one (keep the current one when no alternative exists). -/
def alterActivation (g : Genome) (pick actPick : Nat) (acts : List Activation) : Genome :=
  match g.hidden.get? pick with
  | none => g
  | some node =>
    let candidates := acts.filter (fun a => a ≠ node.activation)
    let newAct := (candidates.get? (actPick % max candidates.length 1)).getD node.activation
    { g with hidden := replaceNode g.hidden ⟨node.id, newAct⟩ }

/-- `Genome::mutate`: always perturb weights, then optionally (per gamble)
add a connection (errors swallowed by `unwrap_or_default`), add a node
(which can panic, hence `Option`), and alter an activation. -/
def mutateGenome (g : Genome) (delta : Nat → Nat → ℚ)
    (gambleConn isRecurrent : Bool) (connOffset : Nat) (connWeight : ℚ)
    (gambleNode : Bool) (nodePick newId : Nat) (nodeAct : Activation)
    (gambleAct : Bool) (actNodePick actPick : Nat) (acts : List Activation) :
    Option Genome :=
  let g1 := changeWeights g delta
  let g2 := if gambleConn then (addConnection g1 isRecurrent connOffset connWeight).1 else g1
  (if gambleNode then addNode g2 nodePick newId nodeAct else some g2).map
    (fun g3 => if gambleAct then alterActivation g3 actNodePick actPick acts else g3)

/-! ## Population reproduction (`Population::generate_offspring`,
`Population::next_generation`) -/

/-- Rust `f64::round`: round half away from zero. -/
def roundRust (q : ℚ) : ℤ := if 0 ≤ q then ⌊q + 1/2⌋ else ⌈q - 1/2⌉

/-- The min-shifted, max-divided scores of `generate_offspring`:
`*score -= minimum_score; *score /= maximum_score;` (note: the division is
by the population maximum of the *unshifted* scores, exactly as the code
does it). -/
def normalizedScores (scores : List ℚ) : List ℚ :=
  match scores with
  | [] => []
  | x :: xs => (x :: xs).map (fun s => (s - foldMin x xs) / foldMax x xs)

/-- `generate_offspring`'s per-survivor allocation: with
`offspring_count = population_size - individuals.len()` and
`value = offspring_count / total normalized score`, each survivor receives
`(score * value).round() as usize` offspring. -/
def offspringCounts (scores : List ℚ) (populationSize : Nat) : List Nat :=
  let normed := normalizedScores scores
  let total := normed.sum
  let value := ((populationSize - scores.length : Nat) : ℚ) / total
  normed.map (fun t => (roundRust (t * value)).toNat)

/-- The population size after `generate_offspring`, as a function of the
survivors' scores: the survivors stay and the allocated offspring are
appended. -/
def generateOffspringSize (scores : List ℚ) (populationSize : Nat) : Nat :=
  scores.length + (offspringCounts scores populationSize).sum

/-- Steps 4–5 of `next_generation`: sort the population's scores descending
and truncate to `ceil(population_size * survival_rate)` survivors. -/
def survivorScores (populationSize : Nat) (survivalRate : ℚ) (scores : List ℚ) : List ℚ :=
  (scores.insertionSort (· ≥ ·)).take (⌈(populationSize : ℚ) * survivalRate⌉).toNat

/-- The population size after `next_generation`, as a function of the
individuals' scores at selection time: sort by score descending, truncate to
the survivor count, then append the proportionally allocated offspring. -/
def nextGenerationSize (populationSize : Nat) (survivalRate : ℚ) (scores : List ℚ) : Nat :=
  generateOffspringSize (survivorScores populationSize survivalRate scores) populationSize

/-! ## Novelty step (`Population::calculate_novelty`) -/

/-- Squared Euclidean distance between two behavior vectors.
Modelled from the spec: the novelty engine (absent `src/individual/behavior.rs`)
uses Euclidean distances; the square root is not rational, so the model uses
the squared distance, which induces the same nearest-neighbour selection and
the same one-score-per-behavior shape — the only facts about
`computeNovelty` the theorems below rely on. -/
def sqDist (a b : List ℚ) : ℚ :=
  ((a.zip b).map (fun p => (p.1 - p.2) * (p.1 - p.2))).sum

/-- Modelled from the spec: `Behaviors::compute_novelty` — for every behavior
in the list, the mean distance to its `k` nearest neighbours among all the
other behaviors (one raw novelty value per behavior, in order). -/
def computeNovelty (k : Nat) (behaviors : List (List ℚ)) : List ℚ :=
  behaviors.enum.map (fun bi =>
    let ds := ((behaviors.enum.filter (fun cj => cj.1 ≠ bi.1)).map
        (fun cj => sqDist bi.2 cj.2)).insertionSort (· ≤ ·)
    let nearest := ds.take k
    nearest.sum / max (nearest.length : ℚ) 1)

/-- `Population::calculate_novelty`, in terms of the population's and the
archive's optional behavior vectors: collect the behaviors of the
individuals that have one, chain the archived behaviors, compute one raw
novelty per collected behavior, find the most novel population index
(`.expect("failed finding most novel")` panics — modelled as `Except.error`
— when there are no behaviors at all), then write
`Some(NoveltyScore::new(raw_novelties[index], ..))` onto **every**
individual, indexing the behavior-indexed novelty list by the individual's
population index (an out-of-bounds panic when some individual lacks a
behavior and the archive does not make up the difference). -/
def calculateNovelty (k : Nat) (population archive : List (Option (List ℚ))) :
    Except String (List (Option ScoreTriple)) :=
  let behaviors := population.filterMap id ++ archive.filterMap id
  let rawNovelties := computeNovelty k behaviors
  if (rawNovelties.take population.length).isEmpty then
    Except.error "failed finding most novel"
  else if rawNovelties.length < population.length then
    Except.error "index out of bounds"
  else
    let baseline := match rawNovelties with
      | [] => 0
      | x :: xs => foldMin x xs
    let withv := (match rawNovelties with
      | [] => 0
      | x :: xs => foldMax x xs) - baseline
    Except.ok ((List.range population.length).map
      (fun i => some (ScoreTriple.new (rawNovelties.getD i 0) baseline withv)))

/-! ## The feed-forward edge relation and acyclicity -/

/-- The directed edge relation induced by a connection list. -/
def edgeRel (conns : List Connection) (a b : Nat) : Prop :=
  ∃ c ∈ conns, c.input = a ∧ c.output = b

/-- A relation is acyclic when no node reaches itself through a nonempty
path. -/
def AcyclicR (E : Nat → Nat → Prop) : Prop :=
  ∀ n, ¬ Relation.TransGen E n n

/-- Acyclicity of the feed-forward subgraph described by a connection list. -/
def Acyclic (conns : List Connection) : Prop :=
  AcyclicR (edgeRel conns)

/-- A path through the connection list, recorded as the list of connections
traversed: `ConnPath conns a b cs` means `cs` chains from node `a` to node
`b`. -/
inductive ConnPath (conns : List Connection) : Nat → Nat → List Connection → Prop where
  | nil (a : Nat) : ConnPath conns a a []
  | cons {a b : Nat} {c : Connection} {cs : List Connection} :
      c ∈ conns → c.input = a → ConnPath conns c.output b cs → ConnPath conns a b (c :: cs)

theorem edgeRel_append {l₁ l₂ : List Connection} {a b : Nat} :
    edgeRel (l₁ ++ l₂) a b ↔ edgeRel l₁ a b ∨ edgeRel l₂ a b := by
  simp only [edgeRel, List.mem_append]
  constructor
  · rintro ⟨c, hc | hc, h⟩
    · exact Or.inl ⟨c, hc, h⟩
    · exact Or.inr ⟨c, hc, h⟩
  · rintro (⟨c, hc, h⟩ | ⟨c, hc, h⟩)
    · exact ⟨c, Or.inl hc, h⟩
    · exact ⟨c, Or.inr hc, h⟩

theorem edgeRel_single {c : Connection} {a b : Nat} :
    edgeRel [c] a b ↔ a = c.input ∧ b = c.output := by
  simp only [edgeRel, List.mem_singleton]
  constructor
  · rintro ⟨d, rfl, h1, h2⟩; exact ⟨h1.symm, h2.symm⟩
  · rintro ⟨rfl, rfl⟩; exact ⟨c, rfl, rfl, rfl⟩

/-- Endpoint-preserving maps of connection lists (such as `replaceConn`)
leave the edge relation unchanged. -/
theorem edgeRel_map {l : List Connection} {f : Connection → Connection}
    (hf : ∀ c, (f c).input = c.input ∧ (f c).output = c.output) {a b : Nat} :
    edgeRel (l.map f) a b ↔ edgeRel l a b := by
  simp only [edgeRel, List.mem_map]
  constructor
  · rintro ⟨c, ⟨d, hd, rfl⟩, h1, h2⟩
    exact ⟨d, hd, by rw [← (hf d).1, h1], by rw [← (hf d).2, h2]⟩
  · rintro ⟨c, hc, h1, h2⟩
    exact ⟨f c, ⟨c, hc, rfl⟩, by rw [(hf c).1, h1], by rw [(hf c).2, h2]⟩

theorem replaceConn_edgeRel (l : List Connection) (c : Connection) (a b : Nat) :
    edgeRel (replaceConn l c) a b ↔ edgeRel l a b := by
  unfold replaceConn
  refine edgeRel_map (fun d => ?_)
  by_cases h : (d.input == c.input && d.output == c.output) = true
  · have h1 := (Bool.and_eq_true _ _).mp h
    have e1 : d.input = c.input := by simpa using h1.1
    have e2 : d.output = c.output := by simpa using h1.2
    simp only [h, if_true]
    exact ⟨e1.symm, e2.symm⟩
  · simp only [h, if_false]; exact ⟨rfl, rfl⟩

/-- Every connection on a path belongs to the connection list. -/
theorem ConnPath.subset {conns : List Connection} {a b : Nat} {cs : List Connection}
    (h : ConnPath conns a b cs) : ∀ c ∈ cs, c ∈ conns := by
  induction h with
  | nil => intro c hc; cases hc
  | cons hc _ _ ih =>
    intro d hd
    rcases List.mem_cons.mp hd with rfl | hd
    · exact hc
    · exact ih d hd

theorem ConnPath.append {conns : List Connection} {a z b : Nat} {u v : List Connection}
    (h1 : ConnPath conns a z u) (h2 : ConnPath conns z b v) :
    ConnPath conns a b (u ++ v) := by
  induction h1 with
  | nil => exact h2
  | cons hc hin _ ih => exact ConnPath.cons hc hin (ih h2)

theorem ConnPath.split {conns : List Connection} {a b : Nat} {u v : List Connection}
    (h : ConnPath conns a b (u ++ v)) :
    ∃ z, ConnPath conns a z u ∧ ConnPath conns z b v := by
  induction u generalizing a with
  | nil => exact ⟨a, ConnPath.nil a, h⟩
  | cons c u ih =>
    cases h with
    | cons hc hin htail =>
      obtain ⟨z, h1, h2⟩ := ih htail
      exact ⟨z, ConnPath.cons hc hin h1, h2⟩

theorem reflTransGen_of_connPath {conns : List Connection} {a b : Nat} {cs : List Connection}
    (h : ConnPath conns a b cs) : Relation.ReflTransGen (edgeRel conns) a b := by
  induction h with
  | nil => exact Relation.ReflTransGen.refl
  | cons hc hin _ ih =>
    exact Relation.ReflTransGen.head ⟨_, hc, hin, rfl⟩ ih

theorem transGen_of_connPath {conns : List Connection} {a b : Nat} {c : Connection}
    {cs : List Connection} (h : ConnPath conns a b (c :: cs)) :
    Relation.TransGen (edgeRel conns) a b := by
  cases h with
  | cons hc hin htail =>
    exact Relation.TransGen.head' ⟨_, hc, hin, rfl⟩ (reflTransGen_of_connPath htail)

theorem connPath_of_reflTransGen {conns : List Connection} {a b : Nat}
    (h : Relation.ReflTransGen (edgeRel conns) a b) :
    ∃ cs, ConnPath conns a b cs := by
  induction h with
  | refl => exact ⟨[], ConnPath.nil a⟩
  | tail _ hedge ih =>
    obtain ⟨cs, hcs⟩ := ih
    obtain ⟨c, hc, h1, h2⟩ := hedge
    exact ⟨cs ++ [c], hcs.append (ConnPath.cons hc h1 (h2 ▸ ConnPath.nil c.output))⟩

theorem connPath_of_transGen {conns : List Connection} {a b : Nat}
    (h : Relation.TransGen (edgeRel conns) a b) :
    ∃ c cs, ConnPath conns a b (c :: cs) := by
  induction h with
  | single hedge =>
    obtain ⟨c, hc, h1, h2⟩ := hedge
    exact ⟨c, [], ConnPath.cons hc h1 (h2 ▸ ConnPath.nil c.output)⟩
  | tail _ hedge ih =>
    obtain ⟨c, cs, hcs⟩ := ih
    obtain ⟨d, hd, h1, h2⟩ := hedge
    subst h2
    refine ⟨c, cs ++ [d], ?_⟩
    have hnil : ConnPath conns d.output d.output [] := ConnPath.nil d.output
    have hstep := ConnPath.cons hd h1 hnil
    simpa using hcs.append hstep

/-- On an acyclic connection set, no path traverses the same connection
twice. -/
theorem acyclic_path_nodup {conns : List Connection} {a b : Nat} {cs : List Connection}
    (hacy : Acyclic conns) (h : ConnPath conns a b cs) : cs.Nodup := by
  induction h with
  | nil => exact List.nodup_nil
  | @cons a b c cs hc hin htail ih =>
    refine List.nodup_cons.mpr ⟨fun hmem => ?_, ih⟩
    obtain ⟨u, v, rfl⟩ := List.append_of_mem hmem
    obtain ⟨z, h1, h2⟩ := htail.split
    cases h2 with
    | cons _ hin2 _ =>
      exact hacy c.input
        (Relation.TransGen.head' ⟨c, hc, rfl, rfl⟩
          (hin2 ▸ reflTransGen_of_connPath h1))

/-- On an acyclic connection set every path is at most as long as the
connection list itself. -/
theorem acyclic_path_length_le {conns : List Connection} {a b : Nat} {cs : List Connection}
    (hacy : Acyclic conns) (h : ConnPath conns a b cs) : cs.length ≤ conns.length := by
  classical
  have hnd := acyclic_path_nodup hacy h
  calc cs.length = cs.toFinset.card := (List.toFinset_card_of_nodup hnd).symm
    _ ≤ conns.toFinset.card := by
        refine Finset.card_le_card (fun x hx => ?_)
        rw [List.mem_toFinset] at hx ⊢
        exact h.subset x hx
    _ ≤ conns.length := List.toFinset_card_le conns

/-! ## Correctness of the `would_form_cycle` frontier loop -/

theorem wfcLoop_mono {conns : List Connection} {sId : Nat} :
    ∀ {fuel fuel' : Nat} {frontier : List Connection} {b : Bool},
      wfcLoop conns sId fuel frontier = some b → fuel ≤ fuel' →
      wfcLoop conns sId fuel' frontier = some b := by
  intro fuel
  induction fuel with
  | zero =>
    intro fuel' frontier b h _
    rw [wfcLoop.eq_def] at h
    cases frontier with
    | nil => simp only [List.isEmpty_nil, if_true] at h; rw [wfcLoop.eq_def]; simpa using h
    | cons c rest => simp [List.isEmpty_cons] at h
  | succ fuel ih =>
    intro fuel' frontier b h hle
    cases frontier with
    | nil =>
      rw [wfcLoop.eq_def] at h
      simp only [List.isEmpty_nil, if_true] at h
      rw [wfcLoop.eq_def]; simpa using h
    | cons c rest =>
      obtain ⟨fuel'', rfl⟩ : ∃ k, fuel' = k + 1 := by
        cases fuel' with
        | zero => omega
        | succ k => exact ⟨k, rfl⟩
      rw [wfcLoop.eq_def] at h; rw [wfcLoop.eq_def]
      simp only [List.isEmpty_cons, if_false, Bool.false_eq_true] at h ⊢
      by_cases hany : (c :: rest).any (fun path => path.output == sId) = true
      · simpa [hany] using h
      · simp only [hany, if_false, Bool.false_eq_true] at h ⊢
        exact ih h (by omega)

theorem wfcLoop_sound {conns : List Connection} {sId eId : Nat} :
    ∀ (fuel : Nat) (frontier : List Connection),
      (∀ c ∈ frontier, c ∈ conns ∧ Relation.ReflTransGen (edgeRel conns) eId c.input) →
      wfcLoop conns sId fuel frontier = some true →
      Relation.TransGen (edgeRel conns) eId sId := by
  intro fuel
  induction fuel with
  | zero =>
    intro frontier hinv h
    rw [wfcLoop.eq_def] at h
    cases frontier with
    | nil => simp at h
    | cons c rest => simp [List.isEmpty_cons] at h
  | succ fuel ih =>
    intro frontier hinv h
    rw [wfcLoop.eq_def] at h
    cases frontier with
    | nil => simp at h
    | cons c rest =>
      simp only [List.isEmpty_cons, if_false, Bool.false_eq_true] at h
      by_cases hany : (c :: rest).any (fun path => path.output == sId) = true
      · obtain ⟨d, hd, hout⟩ := List.any_eq_true.mp hany
        obtain ⟨hdconns, hdreach⟩ := hinv d hd
        have hout' : d.output = sId := by simpa using hout
        exact hout' ▸ Relation.TransGen.tail' hdreach ⟨d, hdconns, rfl, rfl⟩
      · simp only [hany, if_false, Bool.false_eq_true] at h
        refine ih _ (fun c' hc' => ?_) h
        obtain ⟨path, hpath, hc'filter⟩ := List.mem_flatMap.mp hc'
        obtain ⟨hc'conns, hc'in⟩ := List.mem_filter.mp hc'filter
        have hin' : c'.input = path.output := by simpa using hc'in
        obtain ⟨hpconns, hpreach⟩ := hinv path hpath
        exact ⟨hc'conns, hin' ▸ Relation.ReflTransGen.tail hpreach ⟨path, hpconns, rfl, rfl⟩⟩

theorem wfcLoop_complete {conns : List Connection} {sId : Nat} :
    ∀ (fuel : Nat) (frontier : List Connection) (c : Connection) (cs : List Connection),
      c ∈ frontier → c ∈ conns → ConnPath conns c.output sId cs → cs.length < fuel →
      wfcLoop conns sId fuel frontier = some true := by
  intro fuel
  induction fuel with
  | zero => intro _ _ _ _ _ _ hlen; omega
  | succ fuel ih =>
    intro frontier c cs hcf hcconns hpath hlen
    obtain ⟨frontier', rfl⟩ : ∃ l, frontier = l := ⟨frontier, rfl⟩
    cases frontier with
    | nil => cases hcf
    | cons f rest =>
      rw [wfcLoop.eq_def]
      simp only [List.isEmpty_cons, if_false, Bool.false_eq_true]
      by_cases hany : (f :: rest).any (fun path => path.output == sId) = true
      · simp [hany]
      · simp only [hany, if_false, Bool.false_eq_true]
        cases hpath with
        | nil =>
          exfalso
          exact hany (List.any_eq_true.mpr ⟨c, hcf, by simp⟩)
        | @cons _ _ c' cs' hc'conns hc'in htail =>
          refine ih _ c' cs' ?_ hc'conns htail (by simpa using hlen)
          exact List.mem_flatMap.mpr
            ⟨c, hcf, List.mem_filter.mpr ⟨hc'conns, by simp [hc'in]⟩⟩

theorem wfcLoop_isSome {conns : List Connection} {sId eId : Nat} (hacy : Acyclic conns) :
    ∀ (fuel d : Nat) (frontier : List Connection),
      (∀ c ∈ frontier, c ∈ conns ∧ ∃ cs, ConnPath conns eId c.input cs ∧ cs.length = d) →
      conns.length + 1 ≤ fuel + d →
      (wfcLoop conns sId fuel frontier).isSome = true := by
  intro fuel
  induction fuel with
  | zero =>
    intro d frontier hinv hfuel
    cases frontier with
    | nil => rw [wfcLoop.eq_def]; simp
    | cons c rest =>
      exfalso
      obtain ⟨hcconns, cs, hcs, hlen⟩ := hinv c (List.mem_cons_self c rest)
      have hext : ConnPath conns eId c.output (cs ++ [c]) :=
        hcs.append (ConnPath.cons hcconns rfl (ConnPath.nil c.output))
      have := acyclic_path_length_le hacy hext
      simp only [List.length_append, List.length_cons, List.length_nil] at this
      omega
  | succ fuel ih =>
    intro d frontier hinv hfuel
    cases frontier with
    | nil => rw [wfcLoop.eq_def]; simp
    | cons f rest =>
      rw [wfcLoop.eq_def]
      simp only [List.isEmpty_cons, if_false, Bool.false_eq_true]
      by_cases hany : (f :: rest).any (fun path => path.output == sId) = true
      · simp [hany]
      · simp only [hany, if_false, Bool.false_eq_true]
        refine ih (d + 1) _ (fun c' hc' => ?_) (by omega)
        obtain ⟨path, hpath, hc'filter⟩ := List.mem_flatMap.mp hc'
        obtain ⟨hc'conns, hc'in⟩ := List.mem_filter.mp hc'filter
        have hin' : c'.input = path.output := by simpa using hc'in
        obtain ⟨hpconns, cs, hcs, hlen⟩ := hinv path hpath
        refine ⟨hc'conns, cs ++ [path], ?_, by simp [hlen]⟩
        rw [hin']
        exact hcs.append (ConnPath.cons hpconns rfl (ConnPath.nil path.output))

theorem ConnPath.cons_inv {conns : List Connection} {a b : Nat} {c : Connection}
    {cs : List Connection} (h : ConnPath conns a b (c :: cs)) :
    c ∈ conns ∧ c.input = a ∧ ConnPath conns c.output b cs := by
  cases h with
  | cons h1 h2 h3 => exact ⟨h1, h2, h3⟩

/-- The initial frontier of `would_form_cycle` consists of the connections
leaving the end node. -/
theorem mem_wfc_initial {g : Genome} {e : Node} {c : Connection} :
    c ∈ g.feed_forward.filter (fun c => c.input == e.id) ↔
      c ∈ g.feed_forward ∧ c.input = e.id := by
  rw [List.mem_filter]
  simp

/-- Characterization of `would_form_cycle` on an acyclic feed-forward set:
it returns `true` exactly when `start` is reachable from `end` through at
least one feed-forward connection, and the frontier loop finishes (with that
result) as soon as it is given `feed_forward.length + 1` rounds of fuel. -/
theorem wouldFormCycle_char {g : Genome} {s e : Node} (hacy : Acyclic g.feed_forward) :
    (wouldFormCycle g s e = true ↔
      Relation.TransGen (edgeRel g.feed_forward) e.id s.id) ∧
    (∀ fuel, g.feed_forward.length + 1 ≤ fuel →
      wfcLoop g.feed_forward s.id fuel (g.feed_forward.filter (fun c => c.input == e.id)) =
        some (wouldFormCycle g s e)) := by
  have hinv0 : ∀ c ∈ g.feed_forward.filter (fun c => c.input == e.id),
      c ∈ g.feed_forward ∧ ∃ cs, ConnPath g.feed_forward e.id c.input cs ∧ cs.length = 0 := by
    intro c hc
    obtain ⟨h1, h2⟩ := mem_wfc_initial.mp hc
    exact ⟨h1, [], h2 ▸ ConnPath.nil c.input, rfl⟩
  obtain ⟨b, hb⟩ := Option.isSome_iff_exists.mp
    (wfcLoop_isSome hacy (g.feed_forward.length + 1) 0 _ hinv0 (by omega))
  have hwfc : wouldFormCycle g s e = b := by rw [wouldFormCycle, hb]; rfl

  constructor
  · constructor
    · intro htrue
      rw [hwfc] at htrue
      subst htrue
      refine wfcLoop_sound (g.feed_forward.length + 1) _ (fun c hc => ?_) hb
      obtain ⟨h1, h2⟩ := mem_wfc_initial.mp hc
      exact ⟨h1, h2 ▸ Relation.ReflTransGen.refl⟩
    · intro htrans
      obtain ⟨c, cs, hcs⟩ := connPath_of_transGen htrans
      obtain ⟨hcconns, hcin, htail⟩ := hcs.cons_inv
      have hlen : (c :: cs).length ≤ g.feed_forward.length :=
        acyclic_path_length_le hacy hcs
      have := wfcLoop_complete (g.feed_forward.length + 1) _ c cs
        (mem_wfc_initial.mpr ⟨hcconns, hcin⟩) hcconns htail
        (by simp only [List.length_cons] at hlen; omega)
      rw [wouldFormCycle, this]; rfl
  · intro fuel hfuel
    rw [hwfc]
    exact wfcLoop_mono hb hfuel

/-! ## Acyclicity is preserved by the structural extensions -/

theorem acyclicR_congr {E F : Nat → Nat → Prop} (h : ∀ a b, E a b ↔ F a b)
    (hacy : AcyclicR E) : AcyclicR F := by
  intro n hn
  exact hacy n (Relation.TransGen.mono (fun a b => (h a b).mpr) hn)

theorem transGen_head_decomp {α : Type} {r : α → α → Prop} {a b : α}
    (h : Relation.TransGen r a b) : ∃ m, r a m ∧ Relation.ReflTransGen r m b := by
  induction h using Relation.TransGen.head_induction_on with
  | base h => exact ⟨b, h, Relation.ReflTransGen.refl⟩
  | ih h1 h2 _ => exact ⟨_, h1, h2.to_reflTransGen⟩

theorem acyclic_nil : Acyclic [] := by
  intro n hn
  obtain ⟨m, hedge, -⟩ := transGen_head_decomp hn
  obtain ⟨c, hc, -⟩ := hedge
  cases hc

/-- Adding edges whose targets all lie in a set `S` that no edge (old or
new) leaves preserves acyclicity.  This covers `init`, whose new edges all
point into the output nodes. -/
theorem acyclicR_add_sink_edges {E F : Nat → Nat → Prop} (S : Nat → Prop)
    (hacy : AcyclicR E)
    (hF : ∀ a b, F a b → S b)
    (hout : ∀ a b, E a b ∨ F a b → ¬ S a) :
    AcyclicR (fun a b => E a b ∨ F a b) := by
  set G := fun a b => E a b ∨ F a b with hG
  have hnoesc : ∀ u v, Relation.ReflTransGen G u v → S u → u = v := by
    intro u v h hu
    cases (Relation.reflTransGen_iff_eq_or_transGen.mp h) with
    | inl h => exact h.symm
    | inr h =>
      obtain ⟨m, hedge, -⟩ := transGen_head_decomp h
      exact (hout _ _ hedge hu).elim
  have hdecomp : ∀ u v, Relation.ReflTransGen G u v →
      Relation.ReflTransGen E u v ∨
        ∃ a b, F a b ∧ Relation.ReflTransGen E u a ∧ Relation.ReflTransGen G b v := by
    intro u v h
    induction h using Relation.ReflTransGen.head_induction_on with
    | refl => exact Or.inl Relation.ReflTransGen.refl
    | head hedge htail ih =>
      rename_i x m
      cases hedge with
      | inl hE =>
        cases ih with
        | inl h => exact Or.inl (Relation.ReflTransGen.head hE h)
        | inr h =>
          obtain ⟨a, b, hab, h1, h2⟩ := h
          exact Or.inr ⟨a, b, hab, Relation.ReflTransGen.head hE h1, h2⟩
      | inr hF' => exact Or.inr ⟨x, m, hF', Relation.ReflTransGen.refl, htail⟩
  intro n hn
  obtain ⟨m, hedge, hrest⟩ := transGen_head_decomp hn
  cases hedge with
  | inl hE =>
    cases hdecomp m n hrest with
    | inl h => exact hacy n (Relation.TransGen.head' hE h)
    | inr h =>
      obtain ⟨a, b, hab, h1, h2⟩ := h
      have hSb : S b := hF a b hab
      have hbn : b = n := hnoesc b n h2 hSb
      rw [hbn] at hSb
      -- the cycle node is in S, but the edge n → m leaves it
      exact hout n m (Or.inl hE) hSb
  | inr hF' =>
    -- the first edge already enters S, so m ∈ S and the path m →* n is trivial
    have hSm : S m := hF n m hF'
    have hmn : m = n := hnoesc m n hrest hSm
    rw [hmn] at hSm
    exact hout n m (Or.inr hF') hSm

/-- Inserting a single edge `s → e` such that `s` is not reachable from `e`
preserves acyclicity (the `add_connection` case: `would_form_cycle` returned
false). -/
theorem acyclicR_insert_edge {E : Nat → Nat → Prop} {s e : Nat}
    (hacy : AcyclicR E)
    (hnoreach : ¬ Relation.ReflTransGen E e s) :
    AcyclicR (fun a b => E a b ∨ (a = s ∧ b = e)) := by
  set G := fun a b => E a b ∨ (a = s ∧ b = e) with hG
  have hdecomp : ∀ u v, Relation.ReflTransGen G u v →
      Relation.ReflTransGen E u v ∨
        (Relation.ReflTransGen E u s ∧ Relation.ReflTransGen E e v) := by
    intro u v h
    induction h with
    | refl => exact Or.inl Relation.ReflTransGen.refl
    | tail hprev hedge ih =>
      rename_i m k
      cases hedge with
      | inl hE =>
        cases ih with
        | inl h => exact Or.inl (Relation.ReflTransGen.tail h hE)
        | inr h => exact Or.inr ⟨h.1, Relation.ReflTransGen.tail h.2 hE⟩
      | inr hnew =>
        obtain ⟨rfl, rfl⟩ := hnew
        cases ih with
        | inl h => exact Or.inr ⟨h, Relation.ReflTransGen.refl⟩
        | inr h => exact Or.inr ⟨h.1, Relation.ReflTransGen.refl⟩
  intro n hn
  obtain ⟨m, hedge, hrest⟩ := transGen_head_decomp hn
  cases hedge with
  | inl hE =>
    cases hdecomp m n hrest with
    | inl h => exact hacy n (Relation.TransGen.head' hE h)
    | inr h =>
      -- n →E m →E* s, so e →E* s via e →E* n →E m →E* s
      exact hnoreach (Relation.ReflTransGen.trans h.2 (Relation.ReflTransGen.head hE h.1))
  | inr hnew =>
    obtain ⟨he1, he2⟩ := hnew
    rw [he2] at hrest
    cases hdecomp e n hrest with
    | inl h => exact hnoreach (he1 ▸ h)
    | inr h => exact hnoreach h.1

/-- Lifting reflexive-transitive closures along a vertex map that sends
every edge to a (possibly empty) path. -/
theorem reflTransGen_lift {E F : Nat → Nat → Prop} (f : Nat → Nat)
    (hf : ∀ a b, F a b → Relation.ReflTransGen E (f a) (f b)) :
    ∀ {x y}, Relation.ReflTransGen F x y → Relation.ReflTransGen E (f x) (f y) := by
  intro x y h
  induction h with
  | refl => exact Relation.ReflTransGen.refl
  | tail _ hedge ih => exact Relation.ReflTransGen.trans ih (hf _ _ hedge)

/-- Splitting an existing edge `a → b` through a fresh node `n` (adding
`a → n` and `n → b`) preserves acyclicity. -/
theorem acyclicR_split_edge {E : Nat → Nat → Prop} {a b n : Nat}
    (hacy : AcyclicR E)
    (hab : E a b)
    (hfresh : ∀ x y, E x y → x ≠ n ∧ y ≠ n) :
    AcyclicR (fun x y => E x y ∨ (x = a ∧ y = n) ∨ (x = n ∧ y = b)) := by
  set G := fun x y => E x y ∨ (x = a ∧ y = n) ∨ (x = n ∧ y = b) with hG
  have han : a ≠ n := (hfresh a b hab).1
  have hbn : b ≠ n := (hfresh a b hab).2
  -- project a path in G to a path in E, sending the fresh node to `b`
  have hphi : ∀ {x y}, Relation.ReflTransGen G x y →
      Relation.ReflTransGen E (if x = n then b else x) (if y = n then b else y) := by
    refine reflTransGen_lift (fun z => if z = n then b else z) (fun x y hxy => ?_)
    rcases hxy with hE | ⟨hxa, hyn⟩ | ⟨hxn, hyb⟩
    · beta_reduce
      rw [if_neg (hfresh x y hE).1, if_neg (hfresh x y hE).2]
      exact Relation.ReflTransGen.single hE
    · beta_reduce
      rw [hxa, hyn, if_neg han, if_pos rfl]
      exact Relation.ReflTransGen.single hab
    · beta_reduce
      rw [hxn, hyb, if_pos rfl, if_neg hbn]
  -- project a path in G to a path in E, sending the fresh node to `a`
  have hpsi : ∀ {x y}, Relation.ReflTransGen G x y →
      Relation.ReflTransGen E (if x = n then a else x) (if y = n then a else y) := by
    refine reflTransGen_lift (fun z => if z = n then a else z) (fun x y hxy => ?_)
    rcases hxy with hE | ⟨hxa, hyn⟩ | ⟨hxn, hyb⟩
    · beta_reduce
      rw [if_neg (hfresh x y hE).1, if_neg (hfresh x y hE).2]
      exact Relation.ReflTransGen.single hE
    · beta_reduce
      rw [hxa, hyn, if_neg han, if_pos rfl]
    · beta_reduce
      rw [hxn, hyb, if_pos rfl, if_neg hbn]
      exact Relation.ReflTransGen.single hab
  intro m hm
  obtain ⟨k, hedge, hrest⟩ := transGen_head_decomp hm
  rcases hedge with hE | ⟨hma, hkn⟩ | ⟨hmn, hkb⟩
  · -- the cycle starts with an old edge m → k, so m ≠ n and k ≠ n
    have h := hphi hrest
    rw [if_neg (hfresh m k hE).2, if_neg (hfresh m k hE).1] at h
    exact hacy m (Relation.TransGen.head' hE h)
  · -- the cycle starts with a → n, so the rest is a path n →* a
    have h := hphi hrest
    rw [hkn, hma, if_pos rfl, if_neg han] at h
    -- b →E* a plus the edge a → b closes an E-cycle at a
    exact hacy a (Relation.TransGen.head' hab h)
  · -- the cycle starts with n → b, so the rest is a path b →* n
    have h := hpsi hrest
    rw [hkb, hmn, if_neg hbn, if_pos rfl] at h
    -- b →E* a plus the edge a → b closes an E-cycle at b
    exact hacy b (Relation.TransGen.tail' h hab)

/-! ## Well-formedness of genomes and the mutation step relation -/

/-- The data-model invariant of a genome relevant to acyclicity: node ids are
unique within each role set and disjoint across roles (ids are issued by the
globally unique id generator), and no feed-forward connection starts at an
output node (start candidates are always inputs ∪ hidden). -/
def WfGenome (g : Genome) : Prop :=
  (nodeIds g.inputs).Nodup ∧ (nodeIds g.hidden).Nodup ∧ (nodeIds g.outputs).Nodup ∧
  (∀ i ∈ nodeIds g.inputs, i ∉ nodeIds g.hidden) ∧
  (∀ i ∈ nodeIds g.inputs, i ∉ nodeIds g.outputs) ∧
  (∀ i ∈ nodeIds g.hidden, i ∉ nodeIds g.outputs) ∧
  (∀ c ∈ g.feed_forward, c.input ∉ nodeIds g.outputs)

instance (g : Genome) : Decidable (WfGenome g) := by
  unfold WfGenome; infer_instance

/-- Modelled from the spec: the id generator issues globally unique ids, so
the id chosen by `add_node` for the new hidden node differs from every id
already present in the genome (the code itself re-queries the split cache
until the id is not used by an existing hidden node; ids of other roles and
of connection endpoints cannot collide because every id in the genome was
issued by the same generator before the new one). -/
def FreshId (g : Genome) (i : Nat) : Prop :=
  i ∉ nodeIds g.inputs ∧ i ∉ nodeIds g.hidden ∧ i ∉ nodeIds g.outputs ∧
  ∀ c ∈ g.feed_forward, c.input ≠ i ∧ c.output ≠ i

instance (g : Genome) (i : Nat) : Decidable (FreshId g i) := by
  unfold FreshId; infer_instance

/-- One structural mutation of the kinds covered by claim C1: an
`add_connection` attempt (successful or not), a successful `add_node` with a
fresh id, or an `init` whose inserts all succeed. -/
inductive MutStep : Genome → Genome → Prop where
  | conn (g : Genome) (isRecurrent : Bool) (offset : Nat) (w : ℚ) :
      MutStep g (addConnection g isRecurrent offset w).1
  | node (g g' : Genome) (pick newId : Nat) (act : Activation) :
      FreshId g newId → addNode g pick newId act = some g' → MutStep g g'
  | init (g g' : Genome) (offset k : Nat) (w : Nat → Nat → ℚ) :
      initGenome g offset k w = some g' → MutStep g g'

/-- Any number of structural mutations in sequence. -/
def MutStepStar : Genome → Genome → Prop := Relation.ReflTransGen MutStep

/-- What the `find?` predicate of `add_connection` guarantees about the
selected pair. -/
theorem connectionCandidate_props {g : Genome} {isRecurrent : Bool} {offset : Nat}
    {s e : Node} (h : connectionCandidate g isRecurrent offset = some (s, e)) :
    s ∈ g.inputs ++ g.hidden ∧ e ∈ g.hidden ++ g.outputs ∧ e ≠ s ∧
      areConnected g s e isRecurrent = false ∧
      (isRecurrent = true ∨ wouldFormCycle g s e = false) := by
  unfold connectionCandidate at h
  obtain ⟨s', hs'mem, hs'⟩ := List.exists_of_findSome?_eq_some h
  obtain ⟨e', he', heq⟩ := Option.map_eq_some'.mp hs'
  injection heq with h1 h2
  subst h1; subst h2
  have hpred := List.find?_some he'
  have hmem := List.mem_of_find?_eq_some he'
  simp only [Bool.and_eq_true, Bool.or_eq_true, Bool.not_eq_true', decide_eq_true_eq] at hpred
  refine ⟨List.mem_rotate.mp hs'mem, hmem, hpred.1.1, hpred.1.2, ?_⟩
  rcases hpred.2 with h | h
  · exact Or.inl h
  · exact Or.inr (by simpa using h)

/-- In a well-formed genome, a start candidate and a distinct end candidate
have distinct ids. -/
theorem candidate_ids_ne {g : Genome} {s e : Node} (hwf : WfGenome g)
    (hs : s ∈ g.inputs ++ g.hidden) (he : e ∈ g.hidden ++ g.outputs) (hne : e ≠ s) :
    e.id ≠ s.id := by
  obtain ⟨-, hndh, -, hih, hio, hho, -⟩ := hwf
  intro hid
  have hsid : s.id ∈ nodeIds g.inputs ∨ s.id ∈ nodeIds g.hidden := by
    rcases List.mem_append.mp hs with h | h
    · exact Or.inl (List.mem_map_of_mem Node.id h)
    · exact Or.inr (List.mem_map_of_mem Node.id h)
  rcases List.mem_append.mp he with heh | heo
  · -- e is hidden
    rcases hsid with h | h
    · exact hih s.id h (hid ▸ List.mem_map_of_mem Node.id heh)
    · -- both hidden with equal ids: they are the same gene
      rcases List.mem_append.mp hs with hsi | hsh
      · exact hih s.id (List.mem_map_of_mem Node.id hsi) (hid ▸ List.mem_map_of_mem Node.id heh)
      · exact hne (List.inj_on_of_nodup_map hndh heh hsh hid)
  · -- e is an output, but no start candidate id is an output id
    rcases hsid with h | h
    · exact hio s.id h (hid ▸ List.mem_map_of_mem Node.id heo)
    · exact hho s.id h (hid ▸ List.mem_map_of_mem Node.id heo)

/-- `add_connection` preserves well-formedness and acyclicity. -/
theorem addConnection_preserves {g : Genome} {isRecurrent : Bool} {offset : Nat} {w : ℚ}
    (hwf : WfGenome g) (hacy : Acyclic g.feed_forward) :
    WfGenome (addConnection g isRecurrent offset w).1 ∧
      Acyclic (addConnection g isRecurrent offset w).1.feed_forward := by
  unfold addConnection
  cases hcand : connectionCandidate g isRecurrent offset with
  | none => exact ⟨hwf, hacy⟩
  | some se =>
    obtain ⟨s, e⟩ := se
    obtain ⟨hs, he, hne, -, hcase⟩ := connectionCandidate_props hcand
    cases isRecurrent with
    | true =>
      -- recurrent insert: the feed-forward set is untouched
      exact ⟨hwf, hacy⟩
    | false =>
      simp only [if_false, Bool.false_eq_true]
      have hwfc : wouldFormCycle g s e = false := by
        rcases hcase with h | h
        · cases h
        · exact h
      have hids := candidate_ids_ne hwf hs he hne
      have hnotrans : ¬ Relation.TransGen (edgeRel g.feed_forward) e.id s.id := by
        intro h
        rw [← (wouldFormCycle_char hacy).1 ] at h
        rw [hwfc] at h
        cases h
      have hnoreach : ¬ Relation.ReflTransGen (edgeRel g.feed_forward) e.id s.id := by
        intro h
        rcases Relation.reflTransGen_iff_eq_or_transGen.mp h with h | h
        · exact hids h.symm
        · exact hnotrans h
      constructor
      · -- well-formedness: the node sets are unchanged and the new edge
        -- starts at an input or hidden node
        obtain ⟨h1, h2, h3, h4, h5, h6, h7⟩ := hwf
        refine ⟨h1, h2, h3, h4, h5, h6, fun c hc => ?_⟩
        rcases List.mem_append.mp hc with hc | hc
        · exact h7 c hc
        · have : c = ⟨s.id, w, e.id⟩ := List.mem_singleton.mp hc
          subst this
          rcases List.mem_append.mp hs with h | h
          · exact h5 s.id (List.mem_map_of_mem Node.id h)
          · exact h6 s.id (List.mem_map_of_mem Node.id h)
      · -- acyclicity via the single-edge insertion lemma
        refine acyclicR_congr (fun a b => ?_) (acyclicR_insert_edge hacy hnoreach)
        rw [edgeRel_append, edgeRel_single]

/-- Destructuring a successful `add_node`: the picked connection exists, the
two bridging inserts succeeded, and the result genome is the picked
connection's split. -/
theorem addNode_eq_some {g g' : Genome} {pick newId : Nat} {act : Activation}
    (h : addNode g pick newId act = some g') :
    ∃ c, g.feed_forward.get? pick = some c ∧
      newId ∉ nodeIds g.hidden ∧
      g' = { g with
        feed_forward :=
          replaceConn ((g.feed_forward ++ [⟨c.input, 1, newId⟩]) ++ [⟨newId, c.weight, c.output⟩])
            { c with weight := 0 }
        hidden := g.hidden ++ [⟨newId, act⟩] } := by
  unfold addNode at h
  cases hget : g.feed_forward.get? pick with
  | none => rw [hget] at h; cases h
  | some c =>
    rw [hget] at h
    dsimp only at h
    by_cases hmem : newId ∈ nodeIds g.hidden
    · rw [if_pos hmem] at h; cases h
    · rw [if_neg hmem] at h
      refine ⟨c, rfl, hmem, ?_⟩
      unfold insertConnChecked at h
      cases hcp1 : containsPair g.feed_forward c.input newId with
      | true => rw [hcp1] at h; simp at h
      | false =>
        rw [hcp1] at h
        simp only [if_false, Option.some_bind, Bool.false_eq_true] at h
        cases hcp2 : containsPair (g.feed_forward ++ [⟨c.input, 1, newId⟩]) newId c.output with
        | true => rw [hcp2] at h; simp at h
        | false =>
          rw [hcp2] at h
          simp only [if_false, Option.map_some', Option.some.injEq, Bool.false_eq_true] at h
          exact h.symm

/-- The input id of every connection produced by `replaceConn` is the input
id of a connection already in the list. -/
theorem replaceConn_input_mem {l : List Connection} {c0 d : Connection}
    (h : d ∈ replaceConn l c0) : ∃ d0 ∈ l, d.input = d0.input := by
  unfold replaceConn at h
  obtain ⟨d0, hd0, heq⟩ := List.mem_map.mp h
  by_cases hm : (d0.input == c0.input && d0.output == c0.output) = true
  · rw [if_pos hm] at heq
    have : d0.input = c0.input := by
      have := (Bool.and_eq_true _ _).mp hm
      simpa using this.1
    exact ⟨d0, hd0, by rw [← heq, this]⟩
  · rw [if_neg hm] at heq
    exact ⟨d0, hd0, by rw [← heq]⟩

/-- `add_node` (with a globally fresh id) preserves well-formedness and
acyclicity. -/
theorem addNode_preserves {g g' : Genome} {pick newId : Nat} {act : Activation}
    (hfresh : FreshId g newId) (h : addNode g pick newId act = some g')
    (hwf : WfGenome g) (hacy : Acyclic g.feed_forward) :
    WfGenome g' ∧ Acyclic g'.feed_forward := by
  obtain ⟨c, hget, hmem, rfl⟩ := addNode_eq_some h
  obtain ⟨h1, h2, h3, h4, h5, h6, h7⟩ := hwf
  obtain ⟨hfi, hfh, hfo, hfc⟩ := hfresh
  have hcmem : c ∈ g.feed_forward := List.get?_mem hget
  constructor
  · refine ⟨h1, ?_, h3, ?_, h5, ?_, ?_⟩
    · -- hidden ids stay nodup: the new id is fresh
      show (nodeIds (g.hidden ++ [⟨newId, act⟩])).Nodup
      rw [nodeIds, List.map_append]
      refine List.nodup_append.mpr ⟨h2, List.nodup_singleton _, fun i hi hj => ?_⟩
      simp only [List.map_cons, List.map_nil, List.mem_singleton] at hj
      exact hfh (hj ▸ hi)
    · -- input ids still avoid the hidden ids
      intro i hi hj
      rw [nodeIds, List.map_append, List.mem_append] at hj
      rcases hj with hj | hj
      · exact h4 i hi hj
      · simp only [List.map_cons, List.map_nil, List.mem_singleton] at hj
        exact hfi (hj ▸ hi)
    · -- hidden ids still avoid the output ids
      intro i hi
      rw [nodeIds, List.map_append, List.mem_append] at hi
      rcases hi with hi | hi
      · exact h6 i hi
      · simp only [List.map_cons, List.map_nil, List.mem_singleton] at hi
        exact hi ▸ hfo
    · -- no feed-forward connection starts at an output node
      intro d hd
      obtain ⟨d0, hd0, hdi⟩ := replaceConn_input_mem hd
      rw [hdi]
      rcases List.mem_append.mp hd0 with hd0 | hd0
      · rcases List.mem_append.mp hd0 with hd0 | hd0
        · exact h7 d0 hd0
        · have : d0 = ⟨c.input, 1, newId⟩ := List.mem_singleton.mp hd0
          subst this
          exact h7 c hcmem
      · have : d0 = ⟨newId, c.weight, c.output⟩ := List.mem_singleton.mp hd0
        subst this
        exact hfo
  · -- acyclicity via the edge-split lemma
    have hab : edgeRel g.feed_forward c.input c.output := ⟨c, hcmem, rfl, rfl⟩
    have hfresh' : ∀ x y, edgeRel g.feed_forward x y → x ≠ newId ∧ y ≠ newId := by
      rintro x y ⟨d, hd, rfl, rfl⟩
      exact hfc d hd
    refine acyclicR_congr (fun a b => ?_) (acyclicR_split_edge hacy hab hfresh')
    show _ ↔ edgeRel (replaceConn _ _) a b
    rw [replaceConn_edgeRel, edgeRel_append, edgeRel_append, edgeRel_single, edgeRel_single]
    tauto

/-- Structure of a successful sequence of checked inserts: the result is the
accumulator plus connections built from the listed endpoint pairs. -/
theorem foldInsert_structure {w : Nat → Nat → ℚ} :
    ∀ (ps : List (Node × Node)) (acc l' : List Connection),
      ps.foldlM
          (fun ff (p : Node × Node) => insertConnChecked ff ⟨p.1.id, w p.1.id p.2.id, p.2.id⟩)
          acc = some l' →
      ∃ add, l' = acc ++ add ∧
        ∀ c ∈ add, ∃ p ∈ ps, c.input = p.1.id ∧ c.output = p.2.id := by
  intro ps
  induction ps with
  | nil =>
    intro acc l' h
    refine ⟨[], ?_, fun c hc => absurd hc (List.not_mem_nil c)⟩
    have hacc : acc = l' := by
      rw [List.foldlM_nil] at h
      exact Option.some.inj h
    rw [List.append_nil]
    exact hacc.symm
  | cons p ps ih =>
    intro acc l' h
    rw [List.foldlM_cons] at h
    cases hins : insertConnChecked acc ⟨p.1.id, w p.1.id p.2.id, p.2.id⟩ with
    | none => rw [hins] at h; cases h
    | some acc' =>
      rw [hins] at h
      have h' : List.foldlM
          (fun ff (p : Node × Node) => insertConnChecked ff ⟨p.1.id, w p.1.id p.2.id, p.2.id⟩)
          acc' ps = some l' := h
      obtain ⟨add, rfl, hadd⟩ := ih acc' l' h'
      have hacc' : acc' = acc ++ [(⟨p.1.id, w p.1.id p.2.id, p.2.id⟩ : Connection)] := by
        unfold insertConnChecked at hins
        cases hcp : containsPair acc (⟨p.1.id, w p.1.id p.2.id, p.2.id⟩ : Connection).input
            (⟨p.1.id, w p.1.id p.2.id, p.2.id⟩ : Connection).output with
        | true => rw [hcp] at hins; simp at hins
        | false =>
          rw [hcp] at hins
          simp only [if_false, Option.some.injEq, Bool.false_eq_true] at hins
          exact hins.symm
      refine ⟨[(⟨p.1.id, w p.1.id p.2.id, p.2.id⟩ : Connection)] ++ add, by
        rw [hacc']; simp, fun c hc => ?_⟩
      rcases List.mem_append.mp hc with hc | hc
      · have : c = ⟨p.1.id, w p.1.id p.2.id, p.2.id⟩ := List.mem_singleton.mp hc
        subst this
        exact ⟨p, List.mem_cons_self p ps, rfl, rfl⟩
      · obtain ⟨q, hq, h1, h2⟩ := hadd c hc
        exact ⟨q, List.mem_cons_of_mem p hq, h1, h2⟩

/-- `init` preserves well-formedness and acyclicity: every inserted edge
goes from an input node to an output node, and output nodes are sinks. -/
theorem initGenome_preserves {g g' : Genome} {offset k : Nat} {w : Nat → Nat → ℚ}
    (h : initGenome g offset k w = some g')
    (hwf : WfGenome g) (hacy : Acyclic g.feed_forward) :
    WfGenome g' ∧ Acyclic g'.feed_forward := by
  obtain ⟨h1, h2, h3, h4, h5, h6, h7⟩ := hwf
  unfold initGenome at h
  dsimp only at h
  cases hfold : ((g.inputs.rotate offset).take k).flatMap
      (fun inp => g.outputs.map (fun out => (inp, out))) |>.foldlM
      (fun ff (p : Node × Node) => insertConnChecked ff ⟨p.1.id, w p.1.id p.2.id, p.2.id⟩)
      g.feed_forward with
  | none => rw [hfold] at h; cases h
  | some ff' =>
    rw [hfold] at h
    simp only [Option.map_some', Option.some.injEq] at h
    subst h
    obtain ⟨add, rfl, hadd⟩ := foldInsert_structure _ _ _ hfold
    have hpairs : ∀ c ∈ add, c.input ∈ nodeIds g.inputs ∧ c.output ∈ nodeIds g.outputs := by
      intro c hc
      obtain ⟨p, hp, hin, hout⟩ := hadd c hc
      obtain ⟨inp, hinp, hq⟩ := List.mem_flatMap.mp hp
      obtain ⟨out, hout', heq⟩ := List.mem_map.mp hq
      have hinp' : inp ∈ g.inputs := List.mem_rotate.mp (List.mem_of_mem_take hinp)
      have hp1 : p.1 = inp := by rw [← heq]
      have hp2 : p.2 = out := by rw [← heq]
      constructor
      · rw [hin, hp1]; exact List.mem_map_of_mem Node.id hinp'
      · rw [hout, hp2]; exact List.mem_map_of_mem Node.id hout'
    constructor
    · refine ⟨h1, h2, h3, h4, h5, h6, fun c hc => ?_⟩
      rcases List.mem_append.mp hc with hc | hc
      · exact h7 c hc
      · exact h5 c.input (hpairs c hc).1
    · refine acyclicR_congr (fun a b => (edgeRel_append).symm)
        (acyclicR_add_sink_edges (fun i => i ∈ nodeIds g.outputs) hacy ?_ ?_)
      · rintro a b ⟨c, hc, rfl, rfl⟩
        exact (hpairs c hc).2
      · rintro a b (⟨c, hc, rfl, rfl⟩ | ⟨c, hc, rfl, rfl⟩)
        · exact h7 c hc
        · exact h5 c.input (hpairs c hc).1

/-- `Genome::new` yields a well-formed genome with no connections. -/
theorem newGenome_wf (start nIn nOut : Nat) (outAct : Activation) :
    WfGenome (newGenome start nIn nOut outAct) ∧
      Acyclic (newGenome start nIn nOut outAct).feed_forward := by
  have hin : nodeIds (newGenome start nIn nOut outAct).inputs =
      (List.range nIn).map (fun i => start + i) := by
    simp [newGenome, nodeIds, List.map_map, Function.comp]
  have hout : nodeIds (newGenome start nIn nOut outAct).outputs =
      (List.range nOut).map (fun i => start + nIn + i) := by
    simp [newGenome, nodeIds, List.map_map, Function.comp]
  refine ⟨⟨?_, ?_, ?_, ?_, ?_, ?_, ?_⟩, acyclic_nil⟩
  · rw [hin]
    exact (List.nodup_range nIn).map (fun a b hab => by omega)
  · simp [newGenome, nodeIds]
  · rw [hout]
    exact (List.nodup_range nOut).map (fun a b hab => by omega)
  · simp [newGenome, nodeIds]
  · rw [hin, hout]
    intro i hi hj
    simp only [List.mem_map, List.mem_range] at hi hj
    omega
  · simp [newGenome, nodeIds]
  · intro c hc
    simp [newGenome] at hc

/-- Every single structural mutation preserves well-formedness and
acyclicity of the feed-forward subgraph. -/
theorem mutStep_preserves {g g' : Genome} (hwf : WfGenome g) (hacy : Acyclic g.feed_forward)
    (hstep : MutStep g g') : WfGenome g' ∧ Acyclic g'.feed_forward := by
  cases hstep with
  | conn isRecurrent offset w => exact addConnection_preserves hwf hacy
  | node _ pick newId act hfresh h => exact addNode_preserves hfresh h hwf hacy
  | init _ offset k w h => exact initGenome_preserves h hwf hacy

/-- C1: for every genome whose feed-forward connection set is acyclic (as any
genome produced by `new` followed by `init` is), every structural mutation
preserves acyclicity: `add_connection` inserts a feed-forward edge only when
`would_form_cycle` is false, and `add_node` splits an existing feed-forward
edge with a hidden node fresh to this genome; hence after any sequence of
`init`, `add_connection` and `add_node` calls the feed-forward subgraph
contains no directed cycle. -/
theorem genome_mutations_preserve_acyclicity :
    (∀ start nIn nOut outAct,
      WfGenome (newGenome start nIn nOut outAct) ∧
        Acyclic (newGenome start nIn nOut outAct).feed_forward) ∧
    (∀ g g', WfGenome g → Acyclic g.feed_forward → MutStepStar g g' →
      WfGenome g' ∧ Acyclic g'.feed_forward) := by
  refine ⟨newGenome_wf, fun g g' hwf hacy hstar => ?_⟩
  induction hstar with
  | refl => exact ⟨hwf, hacy⟩
  | tail _ hstep ih => exact mutStep_preserves ih.1 ih.2 hstep

/-- A 1-input/1-output genome fresh from `Genome::new`. -/
def demoGenome : Genome := newGenome 0 1 1 Activation.Tanh

/-- `demoGenome` after an `init` that connects the input to the output. -/
def demoInit : Genome :=
  { inputs := [⟨0, Activation.Linear⟩]
    hidden := []
    outputs := [⟨1, Activation.Tanh⟩]
    feed_forward := [⟨0, 1, 1⟩]
    recurrent := [] }

/-- Witness for C1 at a concrete genome and a concrete `init` step. -/
theorem genome_mutations_preserve_acyclicity_witness :
    WfGenome demoGenome ∧ Acyclic demoGenome.feed_forward ∧
      MutStepStar demoGenome demoInit ∧
      (WfGenome demoInit ∧ Acyclic demoInit.feed_forward) := by
  have hwf : WfGenome demoGenome := by decide
  have hacy : Acyclic demoGenome.feed_forward := acyclic_nil
  have hstep : MutStepStar demoGenome demoInit :=
    Relation.ReflTransGen.single
      (MutStep.init demoGenome demoInit 0 1 (fun _ _ => 1) (by decide))
  exact ⟨hwf, hacy, hstep,
    genome_mutations_preserve_acyclicity.2 demoGenome demoInit hwf hacy hstep⟩

/-- C7 (amended): on an acyclic feed-forward set, `would_form_cycle(start,
end)` terminates (the frontier loop finishes within `length + 1` rounds,
with fuel-independent result) and returns true iff `start` is reachable from
`end` through at least one feed-forward connection — equivalently, for
`start ≠ end`, iff inserting the edge start→end would close a cycle.  (At
`start = end` the function returns false even though a self-loop would be a
cycle; see the counterexample.) -/
theorem would_form_cycle_reachability {g : Genome} {s e : Node}
    (hacy : Acyclic g.feed_forward) :
    (wouldFormCycle g s e = true ↔
      Relation.TransGen (edgeRel g.feed_forward) e.id s.id) ∧
    (∀ fuel, g.feed_forward.length + 1 ≤ fuel →
      wfcLoop g.feed_forward s.id fuel (g.feed_forward.filter (fun c => c.input == e.id)) =
        some (wouldFormCycle g s e)) :=
  wouldFormCycle_char hacy

/-- Witness for C7 at the concrete genome `demoInit`. -/
theorem would_form_cycle_reachability_witness :
    Acyclic demoInit.feed_forward ∧
      ((wouldFormCycle demoInit ⟨0, Activation.Linear⟩ ⟨1, Activation.Tanh⟩ = true ↔
        Relation.TransGen (edgeRel demoInit.feed_forward) 1 0) ∧
      (∀ fuel, demoInit.feed_forward.length + 1 ≤ fuel →
        wfcLoop demoInit.feed_forward 0 fuel
            (demoInit.feed_forward.filter (fun c => c.input == 1)) =
          some (wouldFormCycle demoInit ⟨0, Activation.Linear⟩ ⟨1, Activation.Tanh⟩))) := by
  have hacy : Acyclic demoInit.feed_forward :=
    (initGenome_preserves
      (show initGenome demoGenome 0 1 (fun _ _ => 1) = some demoInit by decide)
      (by decide) acyclic_nil).2
  exact ⟨hacy, would_form_cycle_reachability hacy⟩

/-- C7 counterexample: with the acyclic one-edge genome `demoInit` and
`start = end` the input node, `would_form_cycle` returns false although
`start` is reachable from `end` (trivially) and inserting the requested edge
(a self-loop) would close a directed cycle. -/
theorem would_form_cycle_self_loop_cex :
    wouldFormCycle demoInit ⟨0, Activation.Linear⟩ ⟨0, Activation.Linear⟩ = false ∧
      Relation.ReflTransGen (edgeRel demoInit.feed_forward) 0 0 ∧
      Relation.TransGen (edgeRel (demoInit.feed_forward ++ [⟨0, 1, 0⟩])) 0 0 := by
  refine ⟨by decide, Relation.ReflTransGen.refl, Relation.TransGen.single ?_⟩
  exact ⟨⟨0, 1, 0⟩, by decide, rfl, rfl⟩

/-- An individual with normalized fitness 3/5 and normalized novelty 2/5. -/
def demoScoredInd : Individual :=
  { genome := demoInit, age := 0, behavior := none
    fitness := some ⟨1, 1, 3/5⟩, novelty := some ⟨1, 1, 2/5⟩ }

/-- C3: `score()` is 0 when both normalized scores are 0 (or absent), and
otherwise equals `min·(min/(2·max)) + max·(1 − min/(2·max))` of the two
normalized values; in particular normalized fitness 0.6 and novelty 0.4
give ratio 1/3 and score 8/15 = 0.5333…. -/
theorem individual_score_formula :
    (∀ ind : Individual,
      ind.score =
        if normalizedOrZero ind.fitness = 0 ∧ normalizedOrZero ind.novelty = 0 then 0
        else
          min (normalizedOrZero ind.fitness) (normalizedOrZero ind.novelty) *
              (min (normalizedOrZero ind.fitness) (normalizedOrZero ind.novelty) /
                (2 * max (normalizedOrZero ind.fitness) (normalizedOrZero ind.novelty))) +
            max (normalizedOrZero ind.fitness) (normalizedOrZero ind.novelty) *
              (1 - min (normalizedOrZero ind.fitness) (normalizedOrZero ind.novelty) /
                (2 * max (normalizedOrZero ind.fitness) (normalizedOrZero ind.novelty)))) ∧
    Individual.score demoScoredInd = 8 / 15 := by
  constructor
  · intro ind
    unfold Individual.score
    dsimp only
    set n := normalizedOrZero ind.novelty with hn
    set f := normalizedOrZero ind.fitness with hf
    by_cases h0 : n = 0 ∧ f = 0
    · rw [if_pos h0, if_pos (show f = 0 ∧ n = 0 from ⟨h0.2, h0.1⟩)]
    · rw [if_neg h0, if_neg (show ¬(f = 0 ∧ n = 0) from fun hc => h0 ⟨hc.2, hc.1⟩)]
      by_cases hlt : n < f
      · rw [if_pos hlt]
        dsimp only
        rw [min_eq_right hlt.le, max_eq_left hlt.le, div_div, mul_comm f 2]
      · rw [if_neg hlt]
        dsimp only
        push_neg at hlt
        rw [min_eq_left hlt, max_eq_right hlt, div_div, mul_comm n 2]
  · norm_num [Individual.score, normalizedOrZero, demoScoredInd]

/-- An individual with 3 genes (2 feed-forward + 1 recurrent) and no scores. -/
def demoInd3 : Individual :=
  { genome :=
      { inputs := [⟨0, Activation.Linear⟩], hidden := [], outputs := [⟨1, Activation.Tanh⟩]
        feed_forward := [⟨0, 1, 1⟩, ⟨0, 2, 1⟩], recurrent := [⟨1, 1, 0⟩] }
    age := 0, behavior := none, fitness := none, novelty := none }

/-- An individual with 5 genes (3 feed-forward + 2 recurrent) and no scores. -/
def demoInd5 : Individual :=
  { genome :=
      { inputs := [⟨0, Activation.Linear⟩], hidden := [⟨2, Activation.Tanh⟩]
        outputs := [⟨1, Activation.Tanh⟩]
        feed_forward := [⟨0, 1, 1⟩, ⟨0, 1, 2⟩, ⟨2, 1, 1⟩], recurrent := [⟨1, 1, 0⟩, ⟨1, 1, 2⟩] }
    age := 0, behavior := none, fitness := none, novelty := none }

/-- C9: `is_fitter_than` holds iff the score is strictly higher, or the
scores differ by less than `f64::EPSILON` and the total gene count is
strictly smaller; with equal scores and gene counts 3 versus 5, the
3-gene individual is fitter. -/
theorem is_fitter_than_spec :
    (∀ a b : Individual,
      a.isFitterThan b = true ↔
        (b.score < a.score ∨
          (|a.score - b.score| < f64Epsilon ∧ a.genome.len < b.genome.len))) ∧
    (Individual.isFitterThan demoInd3 demoInd5 = true ∧
      Individual.score demoInd3 = Individual.score demoInd5 ∧
      demoInd3.genome.len = 3 ∧ demoInd5.genome.len = 5) := by
  have hiff : ∀ a b : Individual,
      a.isFitterThan b = true ↔
        (b.score < a.score ∨
          (|a.score - b.score| < f64Epsilon ∧ a.genome.len < b.genome.len)) := by
    intro a b
    unfold Individual.isFitterThan
    simp [Bool.or_eq_true, Bool.and_eq_true, decide_eq_true_iff]
  have hs3 : Individual.score demoInd3 = 0 := by
    norm_num [Individual.score, normalizedOrZero, demoInd3]
  have hs5 : Individual.score demoInd5 = 0 := by
    norm_num [Individual.score, normalizedOrZero, demoInd5]
  refine ⟨hiff, ?_, by rw [hs3, hs5], by decide, by decide⟩
  rw [hiff]
  refine Or.inr ⟨?_, by decide⟩
  rw [hs3, hs5]
  norm_num [f64Epsilon]

/-- The fold minimum is an element of the list. -/
theorem foldMin_mem (x : ℚ) (xs : List ℚ) : foldMin x xs ∈ x :: xs := by
  induction xs generalizing x with
  | nil => simp [foldMin]
  | cons y ys ih =>
    have h : foldMin x (y :: ys) = foldMin (min x y) ys := rfl
    rw [h]
    rcases List.mem_cons.mp (ih (min x y)) with hm | hm
    · rcases min_choice x y with hc | hc
      · rw [hm, hc]; exact List.mem_cons_self x (y :: ys)
      · rw [hm, hc]; exact List.mem_cons_of_mem x (List.mem_cons_self y ys)
    · exact List.mem_cons_of_mem x (List.mem_cons_of_mem y hm)

/-- The fold minimum is a lower bound of the list. -/
theorem foldMin_le (x : ℚ) (xs : List ℚ) : ∀ y ∈ x :: xs, foldMin x xs ≤ y := by
  induction xs generalizing x with
  | nil => intro y hy; rw [List.mem_singleton.mp hy]; exact le_refl _
  | cons z zs ih =>
    intro y hy
    have h : foldMin x (z :: zs) = foldMin (min x z) zs := rfl
    rw [h]
    rcases List.mem_cons.mp hy with hx | hy'
    · rw [hx]
      exact le_trans (ih (min x z) (min x z) (List.mem_cons_self _ _)) (min_le_left x z)
    · rcases List.mem_cons.mp hy' with hz | hy''
      · rw [hz]
        exact le_trans (ih (min x z) (min x z) (List.mem_cons_self _ _)) (min_le_right x z)
      · exact ih (min x z) y (List.mem_cons_of_mem _ hy'')

/-- The fold maximum is an element of the list. -/
theorem foldMax_mem (x : ℚ) (xs : List ℚ) : foldMax x xs ∈ x :: xs := by
  induction xs generalizing x with
  | nil => simp [foldMax]
  | cons y ys ih =>
    have h : foldMax x (y :: ys) = foldMax (max x y) ys := rfl
    rw [h]
    rcases List.mem_cons.mp (ih (max x y)) with hm | hm
    · rcases max_choice x y with hc | hc
      · rw [hm, hc]; exact List.mem_cons_self x _
      · rw [hm, hc]; exact List.mem_cons_of_mem x (List.mem_cons_self y ys)
    · exact List.mem_cons_of_mem x (List.mem_cons_of_mem y hm)

/-- The fold maximum is an upper bound of the list. -/
theorem le_foldMax (x : ℚ) (xs : List ℚ) : ∀ y ∈ x :: xs, y ≤ foldMax x xs := by
  induction xs generalizing x with
  | nil => intro y hy; rw [List.mem_singleton.mp hy]; exact le_refl _
  | cons z zs ih =>
    intro y hy
    have h : foldMax x (z :: zs) = foldMax (max x z) zs := rfl
    rw [h]
    rcases List.mem_cons.mp hy with hx | hy'
    · rw [hx]
      exact le_trans (le_max_left x z) (ih (max x z) (max x z) (List.mem_cons_self _ _))
    · rcases List.mem_cons.mp hy' with hz | hy''
      · rw [hz]
        exact le_trans (le_max_right x z) (ih (max x z) (max x z) (List.mem_cons_self _ _))
      · exact ih (max x z) y (List.mem_cons_of_mem _ hy'')

/-- C4: for every non-empty collection of raw fitness (or novelty) values
the pipeline computes `shifted = raw − baseline` with `baseline` the minimum
raw value, and `normalized = shifted / max(maximum shifted, 1)`; raw values
[2, 5, 9] yield shifted [0, 3, 7] and normalized [0, 3/7, 1]. -/
theorem score_pipeline_normalization :
    (∀ (x : ℚ) (xs : List ℚ),
      ∃ b M, b ∈ x :: xs ∧ (∀ y ∈ x :: xs, b ≤ y) ∧ M ∈ x :: xs ∧ (∀ y ∈ x :: xs, y ≤ M) ∧
        assignFitnessScores (x :: xs) =
          (x :: xs).map (fun r =>
            { raw := r, shifted := r - b, normalized := (r - b) / max (M - b) 1 })) ∧
    assignFitnessScores [2, 5, 9] =
      [⟨2, 0, 0⟩, ⟨5, 3, 3/7⟩, ⟨9, 7, 1⟩] := by
  constructor
  · intro x xs
    exact ⟨foldMin x xs, foldMax x xs, foldMin_mem x xs, foldMin_le x xs,
      foldMax_mem x xs, le_foldMax x xs, rfl⟩
  · norm_num [assignFitnessScores, foldMin, foldMax, ScoreTriple.new, shiftScore,
      normalizeScore, min_def, max_def]

theorem containsPair_eq_true {l : List Connection} {i o : Nat} :
    containsPair l i o = true ↔ ∃ d ∈ l, d.input = i ∧ d.output = o := by
  simp [containsPair, List.any_eq_true]

/-- C5: `add_connection` either inserts exactly one new connection whose
(start, end) identity pair was not already present in the targeted set and
returns Ok, or returns Err("no connection possible") leaving the genome
unchanged; on a 1-input/1-output genome whose only pair is already connected
(non-recurrent case) it returns the error. -/
theorem add_connection_unique_or_error :
    (∀ (g : Genome) (isRecurrent : Bool) (offset : Nat) (w : ℚ),
      ((addConnection g isRecurrent offset w).1 = g ∧
        (addConnection g isRecurrent offset w).2 = Except.error "no connection possible") ∨
      (∃ s e : Node, s ∈ g.inputs ++ g.hidden ∧ e ∈ g.hidden ++ g.outputs ∧
        areConnected g s e isRecurrent = false ∧
        (addConnection g isRecurrent offset w).2 = Except.ok () ∧
        (addConnection g isRecurrent offset w).1 =
          (if isRecurrent then { g with recurrent := g.recurrent ++ [⟨s.id, w, e.id⟩] }
           else { g with feed_forward := g.feed_forward ++ [⟨s.id, w, e.id⟩] }))) ∧
    (addConnection demoInit false 0 1).2 = Except.error "no connection possible" := by
  constructor
  · intro g isRecurrent offset w
    unfold addConnection
    cases hcand : connectionCandidate g isRecurrent offset with
    | none => exact Or.inl ⟨rfl, rfl⟩
    | some se =>
      obtain ⟨s, e⟩ := se
      obtain ⟨hs, he, -, hconn, -⟩ := connectionCandidate_props hcand
      exact Or.inr ⟨s, e, hs, he, hconn, rfl, rfl⟩
  · rfl

/-- C6: `add_node` splits the picked feed-forward connection `C = (a, w, b)`:
it adds exactly one hidden node and exactly two feed-forward connections
`(a, 1.0, N)` and `(N, w, b)`, and sets C's weight to exactly 0.0 while C
itself remains in the feed-forward set (so one existing connection yields
3 connections and 1 hidden node). -/
theorem add_node_splits_connection :
    ∀ (g : Genome) (pick newId : Nat) (act : Activation) (c : Connection),
      g.feed_forward.get? pick = some c →
      newId ∉ nodeIds g.hidden →
      (∀ d ∈ g.feed_forward, d.input ≠ newId ∧ d.output ≠ newId) →
      ∃ g', addNode g pick newId act = some g' ∧
        g'.feed_forward.length = g.feed_forward.length + 2 ∧
        g'.hidden = g.hidden ++ [⟨newId, act⟩] ∧
        (⟨c.input, 1, newId⟩ : Connection) ∈ g'.feed_forward ∧
        (⟨newId, c.weight, c.output⟩ : Connection) ∈ g'.feed_forward ∧
        (⟨c.input, 0, c.output⟩ : Connection) ∈ g'.feed_forward ∧
        (∀ d ∈ g'.feed_forward, d.input = c.input → d.output = c.output → d.weight = 0) ∧
        g'.inputs = g.inputs ∧ g'.outputs = g.outputs ∧ g'.recurrent = g.recurrent := by
  intro g pick newId act c hget hmem hfc
  have hcmem : c ∈ g.feed_forward := List.get?_mem hget
  have hcA : containsPair g.feed_forward c.input newId = false := by
    rw [Bool.eq_false_iff]
    intro h
    obtain ⟨d, hd, -, h2⟩ := containsPair_eq_true.mp h
    exact (hfc d hd).2 h2
  have hcB : containsPair (g.feed_forward ++ [⟨c.input, 1, newId⟩]) newId c.output = false := by
    rw [Bool.eq_false_iff]
    intro h
    obtain ⟨d, hd, h1, -⟩ := containsPair_eq_true.mp h
    rcases List.mem_append.mp hd with hd | hd
    · exact (hfc d hd).1 h1
    · have : d = ⟨c.input, 1, newId⟩ := List.mem_singleton.mp hd
      subst this
      exact (hfc c hcmem).1 h1
  have heq : addNode g pick newId act = some
      { g with
        feed_forward :=
          replaceConn ((g.feed_forward ++ [⟨c.input, 1, newId⟩]) ++
            [⟨newId, c.weight, c.output⟩]) { c with weight := 0 }
        hidden := g.hidden ++ [⟨newId, act⟩] } := by
    unfold addNode insertConnChecked
    rw [hget]
    dsimp only
    rw [if_neg hmem]
    simp only [hcA, hcB, Bool.false_eq_true, if_false, Option.some_bind, Option.map_some']
  refine ⟨_, heq, ?_, rfl, ?_, ?_, ?_, ?_, rfl, rfl, rfl⟩
  · show (replaceConn _ _).length = _
    unfold replaceConn
    simp
  · -- the first bridging connection survives `replace` unchanged
    show _ ∈ replaceConn _ _
    unfold replaceConn
    refine List.mem_map.mpr ⟨⟨c.input, 1, newId⟩, by simp, ?_⟩
    have : ((⟨c.input, 1, newId⟩ : Connection).input == c.input &&
        (⟨c.input, 1, newId⟩ : Connection).output == c.output) = false := by
      simp only [Bool.and_eq_false_iff, beq_eq_false_iff_ne, ne_eq]
      exact Or.inr (fun h => (hfc c hcmem).2 h.symm)
    rw [this]
    rfl
  · -- the second bridging connection survives `replace` unchanged
    show _ ∈ replaceConn _ _
    unfold replaceConn
    refine List.mem_map.mpr ⟨⟨newId, c.weight, c.output⟩, by simp, ?_⟩
    have : ((⟨newId, c.weight, c.output⟩ : Connection).input == c.input &&
        (⟨newId, c.weight, c.output⟩ : Connection).output == c.output) = false := by
      simp only [Bool.and_eq_false_iff, beq_eq_false_iff_ne, ne_eq]
      exact Or.inl (fun h => (hfc c hcmem).1 h.symm)
    rw [this]
    rfl
  · -- the split connection itself remains, with weight 0
    show _ ∈ replaceConn _ _
    unfold replaceConn
    refine List.mem_map.mpr ⟨c, by simp [hcmem], ?_⟩
    rw [show (c.input == c.input && c.output == c.output) = true by simp]
    rfl
  · -- and every connection with C's identity now has weight 0
    intro d hd hdi hdo
    obtain ⟨d0, hd0, heq0⟩ := List.mem_map.mp hd
    by_cases hm : (d0.input == c.input && d0.output == c.output) = true
    · rw [if_pos hm] at heq0
      rw [← heq0]
    · rw [if_neg hm] at heq0
      exfalso
      apply hm
      rw [heq0]
      simp [hdi, hdo]

/-- Witness for C6: splitting the single connection of `demoInit`. -/
theorem add_node_splits_connection_witness :
    demoInit.feed_forward.get? 0 = some ⟨0, 1, 1⟩ ∧
      (2 ∉ nodeIds demoInit.hidden) ∧
      (∀ d ∈ demoInit.feed_forward, d.input ≠ 2 ∧ d.output ≠ 2) ∧
      ∃ g', addNode demoInit 0 2 Activation.Tanh = some g' ∧
        g'.feed_forward.length = demoInit.feed_forward.length + 2 ∧
        g'.hidden = demoInit.hidden ++ [⟨2, Activation.Tanh⟩] ∧
        (⟨0, 1, 2⟩ : Connection) ∈ g'.feed_forward ∧
        (⟨2, 1, 1⟩ : Connection) ∈ g'.feed_forward ∧
        (⟨0, 0, 1⟩ : Connection) ∈ g'.feed_forward ∧
        (∀ d ∈ g'.feed_forward, d.input = 0 → d.output = 1 → d.weight = 0) ∧
        g'.inputs = demoInit.inputs ∧ g'.outputs = demoInit.outputs ∧
        g'.recurrent = demoInit.recurrent :=
  ⟨rfl, by decide, by decide,
    add_node_splits_connection demoInit 0 2 Activation.Tanh ⟨0, 1, 1⟩ rfl (by decide) (by decide)⟩

/-- C10: `add_node` on a genome with no feed-forward connections panics (the
uniform random pick yields none and is unwrapped); hence `mutate` panics
whenever its node-mutation gamble fires on a connection-less genome (and no
connection was added first). -/
theorem add_node_empty_panics :
    (∀ (g : Genome) (pick newId : Nat) (act : Activation),
      g.feed_forward = [] → addNode g pick newId act = none) ∧
    (∀ (g : Genome) (delta : Nat → Nat → ℚ) (isRecurrent : Bool) (connOffset : Nat)
        (connWeight : ℚ) (nodePick newId : Nat) (nodeAct : Activation) (gambleAct : Bool)
        (actNodePick actPick : Nat) (acts : List Activation),
      g.feed_forward = [] →
      mutateGenome g delta false isRecurrent connOffset connWeight true nodePick newId nodeAct
        gambleAct actNodePick actPick acts = none) := by
  have h1 : ∀ (g : Genome) (pick newId : Nat) (act : Activation),
      g.feed_forward = [] → addNode g pick newId act = none := by
    intro g pick newId act hff
    unfold addNode
    rw [hff]
    rfl
  refine ⟨h1, ?_⟩
  intro g delta isRecurrent connOffset connWeight nodePick newId nodeAct gambleAct
    actNodePick actPick acts hff
  unfold mutateGenome
  dsimp only
  rw [if_neg (by simp : ¬ (false = true))]
  rw [h1 (changeWeights g delta) nodePick newId nodeAct (by rw [changeWeights, hff]; rfl)]
  rfl

/-- Witness for C10 on the connection-less genome `demoGenome`. -/
theorem add_node_empty_panics_witness :
    demoGenome.feed_forward = [] ∧
      addNode demoGenome 0 5 Activation.Tanh = none ∧
      mutateGenome demoGenome (fun _ _ => 0) false false 0 0 true 0 5 Activation.Tanh
        false 0 0 [] = none :=
  ⟨rfl, add_node_empty_panics.1 demoGenome 0 5 Activation.Tanh rfl,
    add_node_empty_panics.2 demoGenome (fun _ _ => 0) false 0 0 0 5 Activation.Tanh
      false 0 0 [] rfl⟩

/-! ## The reproduction rounding of `generate_offspring` (claim C2) -/

/-- Rust `round` moves a nonnegative value by at most 1/2. -/
theorem roundRust_abs_le {y : ℚ} (hy : 0 ≤ y) : |(roundRust y : ℚ) - y| ≤ 1 / 2 := by
  rw [roundRust, if_pos hy]
  have h1 := Int.floor_le (y + 1 / 2)
  have h2 := Int.sub_one_lt_floor (y + 1 / 2)
  rw [abs_le]
  constructor <;> linarith

theorem roundRust_nonneg {y : ℚ} (hy : 0 ≤ y) : 0 ≤ roundRust y := by
  rw [roundRust, if_pos hy]
  exact Int.floor_nonneg.mpr (by linarith)

/-- The rounded allocations of a list of nonnegative shares stay within
half a unit per entry of the exact shares. -/
theorem roundRust_sum_close :
    ∀ (l : List ℚ) (v : ℚ), (∀ t ∈ l, 0 ≤ t) → 0 ≤ v →
      |((l.map (fun t => (((roundRust (t * v)).toNat : ℕ) : ℚ))).sum -
          (l.map (fun t => t * v)).sum)| ≤ (l.length : ℚ) / 2 := by
  intro l
  induction l with
  | nil => intro v _ _; simp
  | cons a l ih =>
    intro v hpos hv
    have ha : (0 : ℚ) ≤ a * v := mul_nonneg (hpos a (List.mem_cons_self a l)) hv
    have hcast : (((roundRust (a * v)).toNat : ℕ) : ℚ) = ((roundRust (a * v) : ℤ) : ℚ) := by
      exact_mod_cast congrArg (fun z : ℤ => (z : ℚ))
        (Int.toNat_of_nonneg (roundRust_nonneg ha))
    have hhead : |(((roundRust (a * v)).toNat : ℕ) : ℚ) - a * v| ≤ 1 / 2 := by
      rw [hcast]; exact roundRust_abs_le ha
    have htail := ih v (fun t ht => hpos t (List.mem_cons_of_mem a ht)) hv
    simp only [List.map_cons, List.sum_cons, List.length_cons]
    have harr : ((((roundRust (a * v)).toNat : ℕ) : ℚ) +
          (l.map (fun t => (((roundRust (t * v)).toNat : ℕ) : ℚ))).sum -
          (a * v + (l.map (fun t => t * v)).sum)) =
        ((((roundRust (a * v)).toNat : ℕ) : ℚ) - a * v) +
          ((l.map (fun t => (((roundRust (t * v)).toNat : ℕ) : ℚ))).sum -
            (l.map (fun t => t * v)).sum) := by ring
    rw [harr]
    calc _ ≤ |(((roundRust (a * v)).toNat : ℕ) : ℚ) - a * v| +
        |(l.map (fun t => (((roundRust (t * v)).toNat : ℕ) : ℚ))).sum -
          (l.map (fun t => t * v)).sum| := abs_add _ _
      _ ≤ 1 / 2 + (l.length : ℚ) / 2 := add_le_add hhead htail
      _ = ((l.length : ℚ) + 1) / 2 := by ring
      _ = (((l.length : ℕ) + 1 : ℕ) : ℚ) / 2 := by push_cast; ring

/-- Every min-shifted, max-divided score of a list of nonnegative scores is
nonnegative. -/
theorem normalizedScores_nonneg {scores : List ℚ} (hpos : ∀ s ∈ scores, 0 ≤ s) :
    ∀ t ∈ normalizedScores scores, 0 ≤ t := by
  intro t ht
  unfold normalizedScores at ht
  cases scores with
  | nil => cases ht
  | cons x xs =>
    obtain ⟨s, hs, rfl⟩ := List.mem_map.mp ht
    refine div_nonneg ?_ ?_
    · have := foldMin_le x xs s hs
      linarith
    · have := hpos (foldMax x xs) (foldMax_mem x xs)
      linarith

theorem normalizedScores_length (scores : List ℚ) :
    (normalizedScores scores).length = scores.length := by
  unfold normalizedScores
  cases scores <;> simp

/-- C2 (amended): the population size after `next_generation` equals the
survivor count plus the sum of the per-survivor rounded proportional
allocations; since every allocation is the nearest integer to its exact
share and the exact shares sum to `population_size − survivor_count`, the
result is within half a survivor-count of `population_size` — but (see the
counterexample) not always exactly `population_size`. -/
theorem next_generation_size_allocation :
    ∀ (populationSize : Nat) (survivalRate : ℚ) (scores : List ℚ),
      (∀ s ∈ scores, 0 ≤ s) →
      (survivorScores populationSize survivalRate scores).length ≤ populationSize →
      0 < (normalizedScores (survivorScores populationSize survivalRate scores)).sum →
      nextGenerationSize populationSize survivalRate scores =
        (survivorScores populationSize survivalRate scores).length +
          (offspringCounts (survivorScores populationSize survivalRate scores)
            populationSize).sum ∧
      |(nextGenerationSize populationSize survivalRate scores : ℚ) - populationSize| ≤
        (survivorScores populationSize survivalRate scores).length / 2 := by
  intro populationSize survivalRate scores hpos hlen htot
  have hsurvpos : ∀ s ∈ survivorScores populationSize survivalRate scores, 0 ≤ s := by
    intro s hs
    refine hpos s ?_
    unfold survivorScores at hs
    exact ((List.perm_insertionSort (· ≥ ·) scores).mem_iff).mp (List.mem_of_mem_take hs)
  set l := survivorScores populationSize survivalRate scores with hl
  set total := (normalizedScores l).sum with htotal
  set C := populationSize - l.length with hC
  set v := (C : ℚ) / total with hv
  have hv0 : 0 ≤ v := by
    rw [hv]
    exact div_nonneg (by positivity) (le_of_lt htot)
  have hnn := normalizedScores_nonneg hsurvpos
  -- the exact shares sum to the needed offspring count
  have hshares : ((normalizedScores l).map (fun t => t * v)).sum = (C : ℚ) := by
    rw [show (fun t : ℚ => t * v) = (fun t : ℚ => id t * v) from rfl,
      List.sum_map_mul_right, List.map_id, ← htotal, hv, mul_comm]
    exact div_mul_cancel₀ _ (ne_of_gt htot)
  have hcounts : ((offspringCounts l populationSize).sum : ℚ) =
      ((normalizedScores l).map (fun t => (((roundRust (t * v)).toNat : ℕ) : ℚ))).sum := by
    unfold offspringCounts
    rw [Nat.cast_list_sum, List.map_map]
    rfl
  constructor
  · rfl
  · have hclose := roundRust_sum_close (normalizedScores l) v hnn hv0
    rw [hshares] at hclose
    have hsize : (nextGenerationSize populationSize survivalRate scores : ℚ) =
        (l.length : ℚ) + ((offspringCounts l populationSize).sum : ℚ) := by
      unfold nextGenerationSize generateOffspringSize
      push_cast
      rfl
    rw [hsize, hcounts]
    have hCcast : (C : ℚ) = (populationSize : ℚ) - (l.length : ℚ) := by
      rw [hC]
      exact Nat.cast_sub hlen
    rw [normalizedScores_length] at hclose
    calc |(l.length : ℚ) +
          ((normalizedScores l).map (fun t => (((roundRust (t * v)).toNat : ℕ) : ℚ))).sum -
          (populationSize : ℚ)|
        = |((normalizedScores l).map (fun t => (((roundRust (t * v)).toNat : ℕ) : ℚ))).sum -
            (C : ℚ)| := by rw [hCcast]; congr 1; ring
      _ ≤ (l.length : ℚ) / 2 := hclose

/-- C2 counterexample: population size 6, survival rate 1/2 and survivor
scores [1, 1, 0] (reachable as normalized-fitness values with absent
novelty) allocate round(1.5) = 2 offspring to each of the two top survivors
and 0 to the third — 4 offspring where 3 are needed, so the next generation
holds 7 individuals, not population_size = 6. -/
theorem next_generation_size_not_exact_cex :
    nextGenerationSize 6 (1/2) [1, 1, 0, 0, 0, 0] = 7 ∧ (7 : ℕ) ≠ 6 := by
  have hsort : List.insertionSort (· ≥ ·) [(1 : ℚ), 1, 0, 0, 0, 0] = [1, 1, 0, 0, 0, 0] := by
    norm_num [List.insertionSort, List.orderedInsert]
  have hsurv : survivorScores 6 (1/2) [1, 1, 0, 0, 0, 0] = [1, 1, 0] := by
    unfold survivorScores
    rw [hsort]
    norm_num
    decide
  have hnorm : normalizedScores [1, 1, 0] = [1, 1, 0] := by
    norm_num [normalizedScores, foldMin, foldMax, min_def, max_def]
  have hcounts : offspringCounts [1, 1, 0] 6 = [2, 2, 0] := by
    unfold offspringCounts
    rw [hnorm]
    norm_num [roundRust]
    decide
  have hsize : nextGenerationSize 6 (1/2) [1, 1, 0, 0, 0, 0] =
      ([1, 1, 0] : List ℚ).length + (offspringCounts [1, 1, 0] 6).sum := by
    unfold nextGenerationSize generateOffspringSize
    rw [hsurv]
  rw [hsize, hcounts]
  exact ⟨rfl, by decide⟩

/-- Witness for C2 (amended) at the counterexample population. -/
theorem next_generation_size_allocation_witness :
    (∀ s ∈ [(1 : ℚ), 1, 0, 0, 0, 0], 0 ≤ s) ∧
      (survivorScores 6 (1/2) [1, 1, 0, 0, 0, 0]).length ≤ 6 ∧
      0 < (normalizedScores (survivorScores 6 (1/2) [1, 1, 0, 0, 0, 0])).sum ∧
      (nextGenerationSize 6 (1/2) [1, 1, 0, 0, 0, 0] =
        (survivorScores 6 (1/2) [1, 1, 0, 0, 0, 0]).length +
          (offspringCounts (survivorScores 6 (1/2) [1, 1, 0, 0, 0, 0]) 6).sum ∧
      |(nextGenerationSize 6 (1/2) [1, 1, 0, 0, 0, 0] : ℚ) - (6 : ℕ)| ≤
        (survivorScores 6 (1/2) [1, 1, 0, 0, 0, 0]).length / 2) := by
  have hsort : List.insertionSort (· ≥ ·) [(1 : ℚ), 1, 0, 0, 0, 0] = [1, 1, 0, 0, 0, 0] := by
    norm_num [List.insertionSort, List.orderedInsert]
  have hsurv : survivorScores 6 (1/2) [1, 1, 0, 0, 0, 0] = [1, 1, 0] := by
    unfold survivorScores
    rw [hsort]
    norm_num
    decide
  have hnorm : normalizedScores [1, 1, 0] = [1, 1, 0] := by
    norm_num [normalizedScores, foldMin, foldMax, min_def, max_def]
  have h1 : ∀ s ∈ [(1 : ℚ), 1, 0, 0, 0, 0], 0 ≤ s := by norm_num
  have h2 : (survivorScores 6 (1/2) [1, 1, 0, 0, 0, 0]).length ≤ 6 := by
    rw [hsurv]; norm_num
  have h3 : 0 < (normalizedScores (survivorScores 6 (1/2) [1, 1, 0, 0, 0, 0])).sum := by
    rw [hsurv, hnorm]; norm_num
  exact ⟨h1, h2, h3, next_generation_size_allocation 6 (1/2) [1, 1, 0, 0, 0, 0] h1 h2 h3⟩

/-- C8 (code evaluated at the failing inputs): `calculate_novelty` does not
skip behavior-less individuals.  With no behavior anywhere it panics at
`.expect("failed finding most novel")`; with one behavior-less individual
(and an archive that does not make up the count) the assignment loop indexes
the behavior-aligned novelty list out of bounds; and when the archive does
make up the count, the behavior-less individual at index 0 still receives
`Some` novelty — the value computed for a different individual's behavior. -/
theorem calculate_novelty_panics_and_misassigns :
    calculateNovelty 15 [none] [] = Except.error "failed finding most novel" ∧
    calculateNovelty 1 [none, some [0]] [] = Except.error "index out of bounds" ∧
    ∃ t0 t1 : ScoreTriple,
      calculateNovelty 1 [none, some [0]] [some [1]] = Except.ok [some t0, some t1] :=
  ⟨rfl, rfl, _, _, rfl⟩
